import Mathlib

set_option autoImplicit false

/-!
Verification of the civil-code parsing core (docx/pdf parsers and result
processor).  The Python sources are shallowly embedded: strings become
`List Char`/`String`, the regular expressions of the source are expanded
into explicit character-level matchers, JSON values become an inductive
type, and the external structured-generation service is an oracle
parameter.
-/
/-! ## Python string primitives -/
/-- Python Unicode whitespace: the character set recognised by `str.strip()`
and by the `\s` class of `re` on `str` patterns. -/
def py_ws_chars : List Char :=
  [' ', '\t', '\n', '\r', '\x0b', '\x0c',
   '\x1c', '\x1d', '\x1e', '\x1f', '\x85', '\xa0',
   '\u1680', '\u2000', '\u2001', '\u2002', '\u2003', '\u2004', '\u2005',
   '\u2006', '\u2007', '\u2008', '\u2009', '\u200a', '\u2028', '\u2029',
   '\u202f', '\u205f', '\u3000']

def py_ws (c : Char) : Bool := py_ws_chars.contains c

/-- Drop leading Python whitespace (`str.lstrip`). -/
def ltrim (l : List Char) : List Char := l.dropWhile py_ws

/-- Drop trailing Python whitespace (`str.rstrip`). -/
def rtrim (l : List Char) : List Char := (l.reverse.dropWhile py_ws).reverse

/-- `str.strip()` on a character list. -/
def strip_chars (l : List Char) : List Char := rtrim (ltrim l)

/-- `str.strip()` on a `String`. -/
def py_strip (s : String) : String := String.mk (strip_chars s.data)

/-! ## The article-marker pattern

The sources all use the regular expression `第[零一二三四五六七八九十百千\d]+条`.
Because the unit word `条` is not in the bracketed class, greedy matching of
the class runs to the first non-class character, which must then be `条`;
there is no backtracking.  (`\d` is modelled as the ASCII digits actually
used by the documents.) -/
/-- The numbering-token character class `[零一二三四五六七八九十百千\d]`. -/
def marker_num (c : Char) : Bool :=
  ['零', '一', '二', '三', '四', '五', '六', '七', '八', '九', '十', '百', '千'].contains c
    || c.isDigit

/-- Anchored match of `第[零一二三四五六七八九十百千\d]+条` at the head of the
list (`re.match` / a `re.search` hit at this position); returns the length of
the match. -/
def match_marker_len (l : List Char) : Option Nat :=
  match l with
  | [] => none
  | c :: rest =>
    if c = '第' then
      if (rest.takeWhile marker_num).length = 0 then none
      else if (rest.drop (rest.takeWhile marker_num).length).head? = some '条' then
        some ((rest.takeWhile marker_num).length + 2)
      else none
    else none

/-- Does the marker pattern match at this position? -/
def matches_here (l : List Char) : Bool := (match_marker_len l).isSome

/-- Does the marker pattern match anywhere in the text (`re.search`)? -/
def has_marker : List Char → Bool
  | [] => false
  | c :: rest => matches_here (c :: rest) || has_marker rest

/-- Number of marker occurrences (`len(re.findall(...))`, and the number of
substitutions `re.sub` makes).  `re` scans left to right and resumes after
each match, but a marker cannot begin strictly inside another one (`第`
occurs only at the start of a match), so counting every matching position is
the same count. -/
def count_markers : List Char → Nat
  | [] => 0
  | c :: rest => (if matches_here (c :: rest) then 1 else 0) + count_markers rest

/-! ## The text normalizer  (`PDFCivilCodeParser._clean_pdf_text`) -/
/-- `text.replace('\r\n', '\n')`. -/
def repl_crlf : List Char → List Char
  | '\r' :: '\n' :: rest => '\n' :: repl_crlf rest
  | c :: rest => c :: repl_crlf rest
  | [] => []

/-- `text.replace('\r\n', '\n').replace('\r', '\n')`. -/
def repl_cr (l : List Char) : List Char :=
  (repl_crlf l).map (fun c => if c = '\r' then '\n' else c)

/-- `re.sub(r' +', ' ', text)`: collapse runs of spaces (a space whose
successor is also a space is dropped). -/
def coll_sp : List Char → List Char
  | [] => []
  | [c] => [c]
  | c1 :: c2 :: rest =>
    if c1 = ' ' ∧ c2 = ' ' then coll_sp (c2 :: rest) else c1 :: coll_sp (c2 :: rest)

/-- `re.sub(r'\n+', '\n', text)`: collapse runs of newlines. -/
def coll_nl : List Char → List Char
  | [] => []
  | [c] => [c]
  | c1 :: c2 :: rest =>
    if c1 = '\n' ∧ c2 = '\n' then coll_nl (c2 :: rest) else c1 :: coll_nl (c2 :: rest)

/-- `re.sub(r'(第[零一二三四五六七八九十百千\d]+条)', r'\n\1', text)`: insert a
newline before every marker occurrence.  `re.sub` resumes scanning after each
match, but a marker cannot begin strictly inside another one (`第` occurs
only at the start of a match), so inserting at every matching position is the
same substitution. -/
def ins_nl : List Char → List Char
  | [] => []
  | c :: rest =>
    if matches_here (c :: rest) then '\n' :: c :: ins_nl rest else c :: ins_nl rest

/-- `PDFCivilCodeParser._clean_pdf_text`: line-ending unification, space and
blank-line collapsing, a forced newline before every article marker, and a
final `strip()`. -/
def clean_pdf_text (s : String) : String :=
  String.mk (strip_chars (ins_nl (coll_nl (coll_sp (repl_cr s.data)))))

/-! ## Line splitting (`str.split('\n')`) -/
/-- `text.split('\n')` on character lists. -/
def split_lines : List Char → List (List Char)
  | [] => [[]]
  | '\n' :: rest => [] :: split_lines rest
  | c :: rest =>
    match split_lines rest with
    | [] => [[c]]
    | l :: ls => (c :: l) :: ls

/-- Inverse of `split_lines`: join with `'\n'`. -/
def join_lines : List (List Char) → List Char
  | [] => []
  | [l] => l
  | l :: ls => l ++ '\n' :: join_lines ls

/-! ## The article segmenters -/
/-- One segmented article: `{"title": ..., "content": ...}`. -/
structure ArticleUnit where
  title : String
  content : String
deriving DecidableEq

/-- The line loop of `PDFCivilCodeParser.extract_articles_from_pdf`:
strip each line, skip blanks; a marker line closes the current unit (if it
has a title) and opens a new one whose title is the whole line; other lines
are appended to the current unit's content with a `'\n'` separator. -/
def extract_pdf_go (cur : ArticleUnit) (acc : List ArticleUnit) :
    List String → List ArticleUnit
  | [] => if cur.title ≠ "" then acc ++ [cur] else acc
  | line :: rest =>
    let t := py_strip line
    if t = "" then extract_pdf_go cur acc rest
    else if matches_here t.data then
      extract_pdf_go ⟨t, ""⟩ (if cur.title ≠ "" then acc ++ [cur] else acc) rest
    else if cur.title ≠ "" then
      extract_pdf_go ⟨cur.title, if cur.content = "" then t else cur.content ++ "\n" ++ t⟩
        acc rest
    else extract_pdf_go cur acc rest

/-- The pdf-path segmenter applied to normalized text: split on `'\n'` and
run the line loop. -/
def pdf_lines (t : String) : List String :=
  (split_lines t.data).map (fun l => String.mk l)

def segment_pdf_text (t : String) : List ArticleUnit :=
  extract_pdf_go ⟨"", ""⟩ [] (pdf_lines t)

/-- `PDFCivilCodeParser.extract_articles_from_pdf`, with the raw text of the
document (produced by the external reader) as input: clean, then segment. -/
def extract_articles_from_pdf (full_text : String) : List ArticleUnit :=
  segment_pdf_text (clean_pdf_text full_text)

/-- `re.match(r'(第[零一二三四五六七八九十百千\d]+条)\s*(.*)', text)` of the
docx path: split a marker line into the bare marker token (group 1) and the
trailing text (group 2, whitespace-skipped, up to the next `'\n'`), with
`group(2).strip()` as the initial content.  The `none` branch mirrors the
source's dead `else` (the caller only reaches this after a marker match). -/
def split_title_content (t : String) : ArticleUnit :=
  match match_marker_len t.data with
  | some n =>
    ⟨String.mk (t.data.take n),
     py_strip (String.mk (((t.data.drop n).dropWhile py_ws).takeWhile (fun c => c ≠ '\n')))⟩
  | none => ⟨t, ""⟩

/-- The paragraph loop of `DocxCivilCodeParser.extract_articles_from_docx`:
identical transitions to the pdf loop except that a marker paragraph is split
into bare marker token (title) and trailing text (initial content). -/
def extract_docx_go (cur : ArticleUnit) (acc : List ArticleUnit) :
    List String → List ArticleUnit
  | [] => if cur.title ≠ "" then acc ++ [cur] else acc
  | para :: rest =>
    let t := py_strip para
    if t = "" then extract_docx_go cur acc rest
    else if matches_here t.data then
      extract_docx_go (split_title_content t) (if cur.title ≠ "" then acc ++ [cur] else acc) rest
    else if cur.title ≠ "" then
      extract_docx_go ⟨cur.title, if cur.content = "" then t else cur.content ++ "\n" ++ t⟩
        acc rest
    else extract_docx_go cur acc rest

/-- `DocxCivilCodeParser.extract_articles_from_docx`, with the document's
paragraph texts (produced by the external reader) as input. -/
def extract_articles_from_docx (paragraphs : List String) : List ArticleUnit :=
  extract_docx_go ⟨"", ""⟩ [] paragraphs

/-- The pdf-path line loop applied to a list of already-split lines; used to
compare the two segmenters on equivalent input (same delivered text blocks). -/
def extract_articles_from_pdf_lines (lines : List String) : List ArticleUnit :=
  extract_pdf_go ⟨"", ""⟩ [] lines

/-! ## Regex split (`split_articles_by_regex`) -/
/-- `re.split(r'(?=第[零一二三四五六七八九十百千\d]+条)', text)`: cut the text
immediately before every position where the marker matches (the marker stays
with the following segment). -/
def rsplit_go (acc : List Char) : List Char → List (List Char)
  | [] => [acc.reverse]
  | c :: rest =>
    if matches_here (c :: rest) then acc.reverse :: rsplit_go [c] rest
    else rsplit_go (c :: acc) rest

/-- `split_articles_by_regex` (identical in both parsers): regex split, then
drop segments that are empty after `strip()`. -/
def split_articles_by_regex (text : String) : List String :=
  ((rsplit_go [] text.data).map (fun l => String.mk l)).filter (fun a => py_strip a ≠ "")

/-! ## Python / JSON values -/
/-- The Python values that flow through the pipeline after `json.loads`:
`None`, booleans, integers, floats (kept as their source lexeme, which the
pipeline never inspects numerically), strings, lists and dicts. -/
inductive PyVal where
  | none
  | bool (b : Bool)
  | int (n : Int)
  | float (lexeme : String)
  | str (s : String)
  | list (items : List PyVal)
  | dict (fields : List (String × PyVal))

def is_dict : PyVal → Bool
  | .dict _ => true
  | _ => false

def is_list : PyVal → Bool
  | .list _ => true
  | _ => false

/-- `type(x).__name__`, as printed by the diagnostic notes. -/
def type_name : PyVal → String
  | .none => "NoneType"
  | .bool _ => "bool"
  | .int _ => "int"
  | .float _ => "float"
  | .str _ => "str"
  | .list _ => "list"
  | .dict _ => "dict"

/-- Is every digit of the mantissa zero (Python float truthiness on the
lexeme)? -/
def float_is_zero (s : String) : Bool :=
  ((s.data.takeWhile (fun c => c ≠ 'e' ∧ c ≠ 'E')).filter Char.isDigit).all (fun c => c = '0')

/-- Python truthiness `bool(x)`. -/
def py_truthy : PyVal → Bool
  | .none => false
  | .bool b => b
  | .int n => n != 0
  | .float lex => !float_is_zero lex
  | .str s => s ≠ ""
  | .list l => !l.isEmpty
  | .dict f => !f.isEmpty

/-- Key membership, `k in d`. -/
def has_key (fields : List (String × PyVal)) (k : String) : Bool :=
  fields.any (fun p => p.1 = k)

/-- `d.get(k, dflt)`. -/
def dict_get (fields : List (String × PyVal)) (k : String) (dflt : PyVal) : PyVal :=
  match fields.find? (fun p => p.1 = k) with
  | some p => p.2
  | Option.none => dflt

/-- `d[k] = v` with dict semantics: an existing key keeps its position and is
overwritten, a new key is appended. -/
def upsert : List (String × PyVal) → String → PyVal → List (String × PyVal)
  | [], k, v => [(k, v)]
  | (k0, v0) :: rest, k, v =>
    if k0 = k then (k, v) :: rest else (k0, v0) :: upsert rest k v

/-- `len(x)`: `some` for sized values, `none` for the `TypeError` raise. -/
def py_len : PyVal → Option Nat
  | .str s => some s.length
  | .list l => some l.length
  | .dict f => some f.length
  | _ => Option.none

/-! ## `json.loads`

A recursive-descent model of Python's `json.loads` (strict mode, the
default): JSON values with `NaN`/`Infinity`/`-Infinity` accepted, objects
with last-duplicate-wins keys, strings with the standard escapes, numbers
per the scanner grammar `-?(0|[1-9][0-9]*)(\.[0-9]+)?([eE][+-]?[0-9]+)?`,
inter-token whitespace restricted to space, tab, newline, carriage return,
and no data allowed after the top-level value.  The recursion is fueled;
the fuel passed by `json_loads` exceeds the number of parsing steps ever
possible for the input. -/
def json_ws (c : Char) : Bool :=
  c = ' ' || c = '\t' || c = '\n' || c = '\r'

def json_skip_ws (l : List Char) : List Char := l.dropWhile json_ws

def digits_to_nat (ds : List Char) : Nat :=
  ds.foldl (fun a c => a * 10 + (c.toNat - 48)) 0

def is_hex (c : Char) : Bool :=
  c.isDigit || (('a' ≤ c ∧ c ≤ 'f') : Bool) || (('A' ≤ c ∧ c ≤ 'F') : Bool)

def hex_val (c : Char) : Nat :=
  if c.isDigit then c.toNat - 48
  else if ('a' ≤ c : Bool) then c.toNat - 87
  else c.toNat - 55

/-- The body of a JSON string after the opening quote: returns the decoded
characters and the remainder after the closing quote. -/
def parse_jstring : List Char → Option (List Char × List Char)
  | [] => Option.none
  | '"' :: rest => some ([], rest)
  | '\\' :: '"' :: rest => (parse_jstring rest).map (fun p => ('"' :: p.1, p.2))
  | '\\' :: '\\' :: rest => (parse_jstring rest).map (fun p => ('\\' :: p.1, p.2))
  | '\\' :: '/' :: rest => (parse_jstring rest).map (fun p => ('/' :: p.1, p.2))
  | '\\' :: 'b' :: rest => (parse_jstring rest).map (fun p => ('\x08' :: p.1, p.2))
  | '\\' :: 'f' :: rest => (parse_jstring rest).map (fun p => ('\x0c' :: p.1, p.2))
  | '\\' :: 'n' :: rest => (parse_jstring rest).map (fun p => ('\n' :: p.1, p.2))
  | '\\' :: 'r' :: rest => (parse_jstring rest).map (fun p => ('\r' :: p.1, p.2))
  | '\\' :: 't' :: rest => (parse_jstring rest).map (fun p => ('\t' :: p.1, p.2))
  | '\\' :: 'u' :: h1 :: h2 :: h3 :: h4 :: rest =>
    if is_hex h1 && is_hex h2 && is_hex h3 && is_hex h4 then
      (parse_jstring rest).map (fun p =>
        (Char.ofNat (((hex_val h1 * 16 + hex_val h2) * 16 + hex_val h3) * 16 + hex_val h4) :: p.1,
         p.2))
    else Option.none
  | '\\' :: _ => Option.none
  | c :: rest =>
    if c.toNat < 32 then Option.none
    else (parse_jstring rest).map (fun p => (c :: p.1, p.2))

/-- A JSON number at the head of the input, per the scanner grammar. -/
def parse_number (l : List Char) : Option (PyVal × List Char) :=
  let neg : Bool := match l with | '-' :: _ => true | _ => false
  let l1 := match l with | '-' :: r => r | _ => l
  let ip : Option (List Char × List Char) :=
    match l1 with
    | '0' :: r => some (['0'], r)
    | c :: r => if c.isDigit then some (c :: r.takeWhile Char.isDigit, r.dropWhile Char.isDigit)
                else Option.none
    | [] => Option.none
  match ip with
  | Option.none => Option.none
  | some (ipart, r1) =>
    let fr : List Char × List Char :=
      match r1 with
      | '.' :: r2 =>
        if (r2.takeWhile Char.isDigit).isEmpty then ([], '.' :: r2)
        else ('.' :: r2.takeWhile Char.isDigit, r2.dropWhile Char.isDigit)
      | _ => ([], r1)
    let ex : List Char × List Char :=
      match fr.2 with
      | e :: r3 =>
        if e = 'e' || e = 'E' then
          let sgn : List Char := match r3 with | '+' :: _ => ['+'] | '-' :: _ => ['-'] | _ => []
          let r4 := match r3 with | '+' :: r => r | '-' :: r => r | _ => r3
          if (r4.takeWhile Char.isDigit).isEmpty then ([], e :: r3)
          else (e :: (sgn ++ r4.takeWhile Char.isDigit), r4.dropWhile Char.isDigit)
        else ([], fr.2)
      | [] => ([], fr.2)
    if fr.1.isEmpty && ex.1.isEmpty then
      some (.int (if neg then -(digits_to_nat ipart : Int) else (digits_to_nat ipart : Int)), ex.2)
    else
      some (.float (String.mk ((if neg then ['-'] else []) ++ ipart ++ fr.1 ++ ex.1)), ex.2)

mutual

/-- One JSON value at the head of the input. -/
def parse_jvalue : Nat → List Char → Option (PyVal × List Char)
  | 0, _ => Option.none
  | fuel + 1, l =>
    match l with
    | '{' :: rest =>
      (match json_skip_ws rest with
       | '}' :: r2 => some (.dict [], r2)
       | r2 => parse_jobject fuel r2 [])
    | '[' :: rest =>
      (match json_skip_ws rest with
       | ']' :: r2 => some (.list [], r2)
       | r2 => parse_jarray fuel r2 [])
    | '"' :: rest => (parse_jstring rest).map (fun p => (.str (String.mk p.1), p.2))
    | 't' :: 'r' :: 'u' :: 'e' :: rest => some (.bool true, rest)
    | 'f' :: 'a' :: 'l' :: 's' :: 'e' :: rest => some (.bool false, rest)
    | 'n' :: 'u' :: 'l' :: 'l' :: rest => some (.none, rest)
    | 'N' :: 'a' :: 'N' :: rest => some (.float "NaN", rest)
    | 'I' :: 'n' :: 'f' :: 'i' :: 'n' :: 'i' :: 't' :: 'y' :: rest =>
      some (.float "Infinity", rest)
    | '-' :: 'I' :: 'n' :: 'f' :: 'i' :: 'n' :: 'i' :: 't' :: 'y' :: rest =>
      some (.float "-Infinity", rest)
    | _ => parse_number l

/-- Members of a JSON object, starting at a key. -/
def parse_jobject : Nat → List Char → List (String × PyVal) → Option (PyVal × List Char)
  | 0, _, _ => Option.none
  | fuel + 1, l, acc =>
    match l with
    | '"' :: rest =>
      (match parse_jstring rest with
       | some (k, r1) =>
         (match json_skip_ws r1 with
          | ':' :: r2 =>
            (match parse_jvalue fuel (json_skip_ws r2) with
             | some (v, r3) =>
               (match json_skip_ws r3 with
                | ',' :: r4 => parse_jobject fuel (json_skip_ws r4) (upsert acc (String.mk k) v)
                | '}' :: r4 => some (.dict (upsert acc (String.mk k) v), r4)
                | _ => Option.none)
             | Option.none => Option.none)
          | _ => Option.none)
       | Option.none => Option.none)
    | _ => Option.none

/-- Items of a JSON array, starting at a value. -/
def parse_jarray : Nat → List Char → List PyVal → Option (PyVal × List Char)
  | 0, _, _ => Option.none
  | fuel + 1, l, acc =>
    match parse_jvalue fuel l with
    | some (v, r1) =>
      (match json_skip_ws r1 with
       | ',' :: r2 => parse_jarray fuel (json_skip_ws r2) (acc ++ [v])
       | ']' :: r2 => some (.list (acc ++ [v]), r2)
       | _ => Option.none)
    | Option.none => Option.none

end

/-- `json.loads`: parse one JSON document; `none` is the `JSONDecodeError`
raise. -/
def json_loads (s : String) : Option PyVal :=
  match parse_jvalue (2 * s.data.length + 2) (json_skip_ws s.data) with
  | some (v, rest) => if json_skip_ws rest = [] then some v else Option.none
  | Option.none => Option.none

/-! ## The extraction orchestrator
(`DocxCivilCodeParser.parse_single_article` / `parse_docx_civil_code`; the
pdf path's `parse_single_article` is textually identical except for the
document-context line in the prompt) -/
/-- Outcome of one call to the structured-generation collaborator: either
the response message content, or an exception raised by the call (timeout,
transport failure, authentication, ...). -/
inductive SvcOutcome where
  | response (text : String)
  | raised (msg : String)

/-- `parse_single_article`, given the collaborator outcome for this call:
parse the response as JSON; on `json.JSONDecodeError` return the error
record with the raw response preserved; on any other exception return the
generic error record (with no raw text).  The document-context argument only
enters the request payload, hence is part of the collaborator outcome here.
Total: every outcome yields exactly one record, no exception escapes. -/
def parse_single_article (outcome : SvcOutcome) (article_index : Nat) : PyVal :=
  match outcome with
  | .response text =>
    match json_loads text with
    | some v => v
    | Option.none =>
      .dict [("error", .str ("Failed to parse JSON for article " ++ toString (article_index + 1))),
             ("raw_response", .str text)]
  | .raised _ =>
    .dict [("error", .str ("Other error for article " ++ toString (article_index + 1)))]

/-- `f"{article['title']}\n{article['content']}"`. -/
def article_full_text (a : ArticleUnit) : String := a.title ++ "\n" ++ a.content

/-- The `for i, article in enumerate(articles)` loop of
`parse_docx_civil_code` (structured-extraction path): one collaborator call
and one appended record per unit.  `svc` maps the call index and unit text
to that call's outcome; the inter-call `time.sleep(delay)` has no effect on
the produced records and is not modelled. -/
def parse_docx_loop (svc : Nat → String → SvcOutcome) (i : Nat) (acc : List PyVal) :
    List ArticleUnit → List PyVal
  | [] => acc.reverse
  | a :: rest =>
    parse_docx_loop svc (i + 1) (parse_single_article (svc i (article_full_text a)) i :: acc) rest

/-- `parse_docx_civil_code`, from the already-segmented units onward. -/
def parse_docx_civil_code (svc : Nat → String → SvcOutcome)
    (articles : List ArticleUnit) : List PyVal :=
  parse_docx_loop svc 0 [] articles

/-! ## The result aggregator (`JsonProcessor._process_data`) -/
/-- The loop of `_process_data`, also collecting the diagnostic notes it
prints: a dict is appended; a list has its dict members appended in order
(non-dict members are passed over with no note); anything else is skipped
with the `跳过非对象类型数据` note. -/
def process_data_go (acc : List PyVal) (notes : List String) :
    List PyVal → List PyVal × List String
  | [] => (acc.reverse, notes.reverse)
  | PyVal.dict fs :: rest => process_data_go (PyVal.dict fs :: acc) notes rest
  | PyVal.list subs :: rest =>
    process_data_go ((subs.filter is_dict).reverse ++ acc) notes rest
  | item :: rest =>
    process_data_go acc (("跳过非对象类型数据: " ++ type_name item) :: notes) rest

/-- `_process_data` with its diagnostic notes. -/
def process_data_notes (data : List PyVal) : List PyVal × List String :=
  process_data_go [] [] data

/-- `_process_data`: the returned flat list. -/
def process_data (data : List PyVal) : List PyVal :=
  (process_data_notes data).1

/-! ## The validation statistics pass (`JsonProcessor.extract_articles_info`) -/
structure SampleEntry where
  article_number : PyVal
  content_length : Nat
  has_summary : Bool
  keywords_count : Nat

structure ErrorEntry where
  index : Nat
  error : PyVal

structure ArticleStats where
  total_articles : Nat
  valid_articles : Nat
  articles_with_content : Nat
  articles_with_summary : Nat
  articles_with_keywords : Nat
  sample_articles : List SampleEntry
  error_articles : List ErrorEntry

/-- Result of `extract_articles_info`: the statistics report, or the
`except Exception` fallback dict
`{"error": ..., "total_articles": 0, "valid_articles": 0}`. -/
inductive InfoResult where
  | ok (stats : ArticleStats)
  | failed

/-- The `for i, item in enumerate(data)` loop of `extract_articles_info`.
Only dict items are inspected; an `error` key sends the item to
`error_articles`; otherwise the counters are updated via truthiness of
`content`/`summary`/`keywords` and the first five valid items are sampled —
where `len(item.get("content", ""))` and `len(item.get("keywords", []))`
raise `TypeError` on unsized values, which the function's `except` turns
into the fallback dict. -/
def extract_info_go (st : ArticleStats) (i : Nat) : List PyVal → InfoResult
  | [] => .ok st
  | PyVal.dict fs :: rest =>
    if has_key fs "error" then
      extract_info_go
        { st with error_articles := st.error_articles ++ [⟨i, dict_get fs "error" (.str "未知错误")⟩] }
        (i + 1) rest
    else
      let st1 := { st with valid_articles := st.valid_articles + 1 }
      let st2 := if py_truthy (dict_get fs "content" .none) then
          { st1 with articles_with_content := st1.articles_with_content + 1 } else st1
      let st3 := if py_truthy (dict_get fs "summary" .none) then
          { st2 with articles_with_summary := st2.articles_with_summary + 1 } else st2
      let st4 := if py_truthy (dict_get fs "keywords" .none) then
          { st3 with articles_with_keywords := st3.articles_with_keywords + 1 } else st3
      if st4.sample_articles.length < 5 then
        match py_len (dict_get fs "content" (.str "")), py_len (dict_get fs "keywords" (.list [])) with
        | some cl, some kc =>
          extract_info_go
            { st4 with sample_articles := st4.sample_articles ++
                [⟨dict_get fs "article_number" (.str ("第" ++ toString (i + 1) ++ "条")),
                  cl, py_truthy (dict_get fs "summary" .none), kc⟩] }
            (i + 1) rest
        | _, _ => .failed
      else extract_info_go st4 (i + 1) rest
  | _ :: rest => extract_info_go st (i + 1) rest

/-- `extract_articles_info` on already-loaded list data. -/
def extract_articles_info (data : List PyVal) : InfoResult :=
  extract_info_go ⟨data.length, 0, 0, 0, 0, [], []⟩ 0 data

/-! ## C7 / C10: the aggregator's one-level flatten -/
/-- What `_process_data` computes, as a per-element flat map: a dict is kept,
a list contributes its dict members, anything else contributes nothing. -/
def flatten_records (data : List PyVal) : List PyVal :=
  data.flatMap (fun item =>
    match item with
    | .dict fs => [.dict fs]
    | .list subs => subs.filter is_dict
    | _ => [])

/-- The diagnostic notes `_process_data` prints: one per top-level element
that is neither a dict nor a list. -/
def skip_notes (data : List PyVal) : List String :=
  data.filterMap (fun item =>
    match item with
    | .dict _ => Option.none
    | .list _ => Option.none
    | other => some ("跳过非对象类型数据: " ++ type_name other))

/-- Modelled from the spec: the aggregation C7 claims, in which a
sequence-valued element is expanded into ALL of its members. -/
def flatten_all_members (data : List PyVal) : List PyVal :=
  data.flatMap (fun item =>
    match item with
    | .dict fs => [.dict fs]
    | .list subs => subs
    | _ => [])

/-- A text block is "bare-marker": if its stripped form matches the marker
pattern, the whole stripped block is exactly the marker token. -/
def bare_marker_block (s : String) : Bool :=
  match match_marker_len (py_strip s).data with
  | some n => (py_strip s).data.length == n
  | Option.none => true

/-! ## C9: the validation statistics pass -/
/-- A record (dict) without the error marker. -/
def is_valid_record (v : PyVal) : Bool :=
  match v with
  | .dict fs => !has_key fs "error"
  | _ => false

/-- A non-error record whose field `key` is truthy (non-empty). -/
def valid_with (key : String) (v : PyVal) : Bool :=
  match v with
  | .dict fs => !has_key fs "error" && py_truthy (dict_get fs key .none)
  | _ => false

/-- The sample entry built for the valid record at index `i`; `none` when
`len()` raises on the `content` or `keywords` value. -/
def sample_of (i : Nat) (fs : List (String × PyVal)) : Option SampleEntry :=
  match py_len (dict_get fs "content" (.str "")), py_len (dict_get fs "keywords" (.list [])) with
  | some cl, some kc =>
    some ⟨dict_get fs "article_number" (.str ("第" ++ toString (i + 1) ++ "条")),
          cl, py_truthy (dict_get fs "summary" .none), kc⟩
  | _, _ => Option.none

/-- No `TypeError` while sampling this record: either it is an error record
(never sampled) or its `content` and `keywords` values support `len()`. -/
def sample_ok (v : PyVal) : Bool :=
  match v with
  | .dict fs =>
    has_key fs "error" ||
      ((py_len (dict_get fs "content" (.str ""))).isSome &&
        (py_len (dict_get fs "keywords" (.list []))).isSome)
  | _ => true

/-- The report the statistics pass computes, stated directly: total count,
count of records lacking the error marker, truthy-field counts over the
non-error records, the first five valid records sampled, and the error
records with their indices. -/
def stats_spec (data : List PyVal) : ArticleStats where
  total_articles := data.length
  valid_articles := data.countP is_valid_record
  articles_with_content := data.countP (valid_with "content")
  articles_with_summary := data.countP (valid_with "summary")
  articles_with_keywords := data.countP (valid_with "keywords")
  sample_articles :=
    ((data.enum.filter (fun p => is_valid_record p.2)).take 5).filterMap
      (fun p => match p.2 with
        | .dict fs => sample_of p.1 fs
        | _ => Option.none)
  error_articles :=
    data.enum.filterMap (fun p =>
      match p.2 with
      | .dict fs =>
        if has_key fs "error" then some ⟨p.1, dict_get fs "error" (.str "未知错误")⟩
        else Option.none
      | _ => Option.none)

/-- The counter bumps a valid record applies to the statistics state. -/
def stats_bump (st : ArticleStats) (fs : List (String × PyVal)) : ArticleStats :=
  { st with
    valid_articles := st.valid_articles + 1
    articles_with_content :=
      st.articles_with_content + (if py_truthy (dict_get fs "content" .none) then 1 else 0)
    articles_with_summary :=
      st.articles_with_summary + (if py_truthy (dict_get fs "summary" .none) then 1 else 0)
    articles_with_keywords :=
      st.articles_with_keywords + (if py_truthy (dict_get fs "keywords" .none) then 1 else 0) }

/-- Adjacent characters are not both spaces. -/
def no_sp_pair (x y : Char) : Prop := ¬ (x = ' ' ∧ y = ' ')

/-- Adjacent characters are not both newlines. -/
def no_nl_pair (x y : Char) : Prop := ¬ (x = '\n' ∧ y = '\n')

/-! ## C8: regex split versus the state machine -/
/-- Join of complete lines, each terminated by a newline (the shape of a
regex-split segment that ends at a cut point). -/
def join_nl : List (List Char) → List Char
  | [] => []
  | q :: qs => q ++ '\n' :: join_nl qs

/-- `rsplit_go` replayed line by line: the accumulator collects the current
segment's characters in reverse; a marker-initial line cuts. -/
def rline_go (p : List Char) : List (List Char) → List (List Char)
  | [] => [p.reverse]
  | ℓ :: rest =>
    if matches_here ℓ then
      p.reverse :: rline_go ((if rest.isEmpty then [] else ['\n']) ++ ℓ.reverse) rest
    else rline_go (((if rest.isEmpty then [] else ['\n']) ++ ℓ.reverse) ++ p) rest

/-- Canonical line content of a text: its stripped non-blank lines. -/
def canon_chars (l : List Char) : List (List Char) :=
  ((split_lines l).map strip_chars).filter (fun x => x ≠ [])

/-- Canonical content contributed by one line. -/
def canon_line (ℓ : List Char) : List (List Char) :=
  if strip_chars ℓ = [] then [] else [strip_chars ℓ]

/-- Canonical content of a list of already-clean lines. -/
def canon_list (P : List (List Char)) : List (List Char) :=
  (P.map strip_chars).filter (fun x => x ≠ [])

/-- The canonical segments of a line sequence: accumulate stripped non-blank
lines, cut before every marker-initial line, drop blank segments. -/
def segs_canon (c : List (List Char)) : List (List Char) → List (List (List Char))
  | [] => if c = [] then [] else [c]
  | ℓ :: rest =>
    if matches_here ℓ then
      (if c = [] then segs_canon (canon_line ℓ) rest
       else c :: segs_canon (canon_line ℓ) rest)
    else segs_canon (c ++ canon_line ℓ) rest

/-- Canonical line content of one segmented unit (title and content joined
by a newline, as the orchestrator also reassembles them). -/
def canon_unit (u : ArticleUnit) : List (List Char) :=
  canon_chars (u.title ++ "\n" ++ u.content).data

/-- Canonical line content of a string. -/
def canon_str (s : String) : List (List Char) := canon_chars s.data

/-- The lines before the first marker-matching line all strip to blank: the
pdf machine silently drops such front matter while the regex split keeps it,
so the equivalence needs this side condition. -/
def front_blank (L : List (List Char)) : Bool :=
  (L.takeWhile (fun ℓ => !(matches_here ℓ))).all (fun ℓ => (strip_chars ℓ).isEmpty)

example :
    extract_articles_from_docx ["第一条 总则内容。", "第二条　分则内容第一行。", "分则内容第二行。"] =
      [⟨"第一条", "总则内容。"⟩, ⟨"第二条", "分则内容第一行。\n分则内容第二行。"⟩] := by
  decide

example :
    segment_pdf_text "第一条 甲\n乙\n第二条 丙" =
      [⟨"第一条 甲", "乙"⟩, ⟨"第二条 丙", ""⟩] := by decide

example : clean_pdf_text "a第一条" = "a\n第一条" := by decide

example : clean_pdf_text (clean_pdf_text "a第一条") = "a\n\n第一条" := by decide

example : split_articles_by_regex "前言\n第一条内容" = ["前言\n", "第一条内容"] := by decide

example : count_markers "x第一条y第二十三条".data = 2 := by decide

example : json_loads "抱歉，我无法处理" = Option.none := rfl

example : json_loads "{}" = some (.dict []) := rfl

example : json_loads "[1" = Option.none := rfl

example : json_loads "1 2" = Option.none := rfl

example : json_loads "-12" = some (.int (-12)) := rfl

example : json_loads "\"a\\nb\"" = some (.str "a\nb") := rfl

example :
    parse_single_article (.response "抱歉，我无法处理") 2 =
      .dict [("error", .str "Failed to parse JSON for article 3"),
             ("raw_response", .str "抱歉，我无法处理")] := rfl

/-! ## Basic facts about the marker pattern -/
lemma py_ws_iff_mem {c : Char} : py_ws c = true ↔ c ∈ py_ws_chars := by
  simp [py_ws, List.contains, List.elem_iff]

lemma marker_num_not_ws {c : Char} (h : marker_num c = true) : py_ws c = false := by
  by_contra hne
  have hws : py_ws c = true := by
    cases hpw : py_ws c with
    | true => rfl
    | false => exact absurd hpw hne
  have hall : ∀ x ∈ py_ws_chars, marker_num x = false := by decide
  rw [hall c (py_ws_iff_mem.mp hws)] at h
  exact Bool.noConfusion h

lemma takeWhile_all_append {p : Char → Bool} {a : List Char} {x : Char} (b : List Char)
    (ha : ∀ c ∈ a, p c = true) (hx : p x = false) :
    (a ++ x :: b).takeWhile p = a := by
  induction a with
  | nil => simp [List.takeWhile_cons, hx]
  | cons d a ih =>
    have hd := ha d (by simp)
    simp only [List.cons_append, List.takeWhile_cons, hd, if_true]
    rw [ih (fun c hc => ha c (by simp [hc]))]

lemma drop_takeWhile_length (p : Char → Bool) (l : List Char) :
    l.drop (l.takeWhile p).length = l.dropWhile p := by
  induction l with
  | nil => rfl
  | cons c rest ih => by_cases hc : p c <;> simp [List.takeWhile_cons, List.dropWhile_cons, hc, ih]

/-- Inversion for the marker matcher: a match is exactly the decomposition
`第` + nonempty numbering-token run + `条`. -/
lemma match_marker_some_iff {l : List Char} {n : Nat} :
    match_marker_len l = some n ↔
      ∃ ds tail, l = '第' :: (ds ++ '条' :: tail) ∧ ds ≠ [] ∧
        (∀ c ∈ ds, marker_num c = true) ∧ n = ds.length + 2 := by
  constructor
  · intro h
    match l with
    | [] => exact absurd h (by simp [match_marker_len])
    | c :: rest =>
      simp only [match_marker_len] at h
      by_cases hc : c = '第'
      case neg => rw [if_neg hc] at h; exact absurd h (by simp)
      subst hc
      rw [if_pos rfl] at h
      by_cases h0 : (rest.takeWhile marker_num).length = 0
      case pos => rw [if_pos h0] at h; exact absurd h (by simp)
      rw [if_neg h0] at h
      by_cases hh : (rest.drop (rest.takeWhile marker_num).length).head? = some '条'
      case neg => rw [if_neg hh] at h; exact absurd h (by simp)
      rw [if_pos hh] at h
      have hn : n = (rest.takeWhile marker_num).length + 2 := (Option.some.inj h).symm
      have hsplit := List.takeWhile_append_dropWhile marker_num rest
      rw [drop_takeWhile_length] at hh
      match hdw : rest.dropWhile marker_num with
      | [] => rw [hdw] at hh; exact absurd hh (by simp)
      | a :: t =>
        rw [hdw] at hh
        have ha : a = '条' := by simpa using hh
        have hrest : rest = rest.takeWhile marker_num ++ '条' :: t := by
          conv_lhs => rw [← hsplit]
          rw [hdw, ha]
        refine ⟨rest.takeWhile marker_num, t, ?_, ?_, ?_, hn⟩
        · conv_lhs => rw [hrest]
        · intro he
          rw [he] at h0
          exact h0 rfl
        · intro x hx
          exact List.mem_takeWhile_imp hx
  · rintro ⟨ds, tail, rfl, hne, hall, rfl⟩
    have htw : ((ds ++ '条' :: tail).takeWhile marker_num) = ds :=
      takeWhile_all_append tail hall (by decide)
    simp only [match_marker_len, if_pos rfl]
    rw [htw]
    have hlen0 : ¬ ds.length = 0 := by
      cases ds with
      | nil => exact absurd rfl hne
      | cons _ _ => simp
    rw [if_neg hlen0, List.drop_left]
    simp

lemma matches_here_iff {l : List Char} :
    matches_here l = true ↔
      ∃ ds tail, l = '第' :: (ds ++ '条' :: tail) ∧ ds ≠ [] ∧
        (∀ c ∈ ds, marker_num c = true) := by
  constructor
  · intro h
    obtain ⟨n, hn⟩ := Option.isSome_iff_exists.mp h
    obtain ⟨ds, tail, h1, h2, h3, _⟩ := match_marker_some_iff.mp hn
    exact ⟨ds, tail, h1, h2, h3⟩
  · rintro ⟨ds, tail, rfl, hne, hall⟩
    unfold matches_here
    rw [match_marker_some_iff.mpr ⟨ds, tail, rfl, hne, hall, rfl⟩]
    rfl

lemma matches_here_nil : matches_here ([] : List Char) = false := rfl

lemma matches_here_append {a b : List Char} (h : matches_here a = true) :
    matches_here (a ++ b) = true := by
  obtain ⟨ds, tail, rfl, hne, hall⟩ := matches_here_iff.mp h
  exact matches_here_iff.mpr ⟨ds, tail ++ b, by simp, hne, hall⟩

/-- C4: on the specific three-line input text, the paragraph-oriented
segmenter produces exactly the two units of the scenario: bare marker tokens
as titles, the trailing text of a marker line as initial content, and
subsequent non-marker lines appended to content joined by newline. -/
theorem docx_segmenter_scenario :
    extract_articles_from_docx
        ((split_lines ("第一条 总则内容。\n第二条　分则内容第一行。\n分则内容第二行。").data).map
          (fun l => String.mk l)) =
      [⟨"第一条", "总则内容。"⟩, ⟨"第二条", "分则内容第一行。\n分则内容第二行。"⟩] := by
  decide

/-! ## C1: the orchestrator emits exactly one record per unit -/
lemma parse_docx_loop_eq (svc : Nat → String → SvcOutcome) (articles : List ArticleUnit) :
    ∀ (i : Nat) (acc : List PyVal),
      parse_docx_loop svc i acc articles =
        acc.reverse ++ (List.enumFrom i articles).map
          (fun p => parse_single_article (svc p.1 (article_full_text p.2)) p.1) := by
  induction articles with
  | nil => intro i acc; simp [parse_docx_loop]
  | cons a rest ih =>
    intro i acc
    simp only [parse_docx_loop]
    rw [ih]
    simp [List.enumFrom_cons]

/-- C1: for every sequence of N units, the orchestrator emits exactly N
records — one per unit, success or error — and the i-th record of the output
is the record produced for the i-th unit (the map over the enumerated unit
list), so index order is preserved. -/
theorem extraction_one_to_one (svc : Nat → String → SvcOutcome) (articles : List ArticleUnit) :
    (parse_docx_civil_code svc articles).length = articles.length ∧
    parse_docx_civil_code svc articles =
      articles.enum.map (fun p => parse_single_article (svc p.1 (article_full_text p.2)) p.1) := by
  have h := parse_docx_loop_eq svc articles 0 []
  constructor
  · rw [parse_docx_civil_code, h]
    simp [List.enumFrom_length]
  · rw [parse_docx_civil_code, h]
    simp [List.enum]

lemma process_data_go_eq (data : List PyVal) :
    ∀ (acc : List PyVal) (notes : List String),
      process_data_go acc notes data =
        (acc.reverse ++ flatten_records data, notes.reverse ++ skip_notes data) := by
  induction data with
  | nil => intro acc notes; simp [process_data_go, flatten_records, skip_notes]
  | cons item rest ih =>
    intro acc notes
    cases item <;>
      (simp only [process_data_go]; rw [ih]; simp [flatten_records, skip_notes])

/-- C7 counterexample: on `[["x"]]` the aggregator drops the nested string
member entirely, so its output differs from the claimed expansion of a
sequence into its members. -/
theorem aggregator_not_member_expansion :
    process_data [PyVal.list [PyVal.str "x"]] ≠
      flatten_all_members [PyVal.list [PyVal.str "x"]] := by
  intro h
  have h2 : ([] : List PyVal) = [PyVal.str "x"] := h
  exact List.noConfusion h2

/-- C7 amended: the aggregator flattens exactly one level preserving
relative order — each mapping element is kept as-is in place, each sequence
element is expanded in place into its mapping members (other members are
dropped), and every other element is dropped; records are never altered. -/
theorem aggregator_flatten_one_level (data : List PyVal) :
    process_data data = flatten_records data := by
  have h := process_data_go_eq data [] []
  simp only [process_data, process_data_notes, h, List.reverse_nil, List.nil_append]

/-- C10: the flatten is strictly one level deep and filters nested members by
type: dict members of a nested list are kept, all other members are dropped
silently — the diagnostic notes come only from top-level elements that are
neither dict nor list. -/
theorem aggregator_one_level_silent_filter (data : List PyVal) :
    process_data_notes data = (flatten_records data, skip_notes data) := by
  have h := process_data_go_eq data [] []
  simpa [process_data_notes] using h

/-! ## C6: the per-unit failure taxonomy -/
/-- C6: the per-unit extraction never propagates an exception and follows the
two-branch failure taxonomy — a response that is not valid JSON yields the
`Failed to parse JSON for article i+1` record with the raw response
preserved, any other exception yields the generic `Other error for article
i+1` record without a raw response, and the orchestrator still emits one
record per unit (processing continues). -/
theorem extraction_failure_taxonomy (text emsg : String) (i : Nat)
    (svc : Nat → String → SvcOutcome) (articles : List ArticleUnit)
    (hjson : json_loads text = Option.none) :
    parse_single_article (.response text) i =
      .dict [("error", .str ("Failed to parse JSON for article " ++ toString (i + 1))),
             ("raw_response", .str text)] ∧
    parse_single_article (.raised emsg) i =
      .dict [("error", .str ("Other error for article " ++ toString (i + 1)))] ∧
    (parse_docx_civil_code svc articles).length = articles.length := by
  refine ⟨?_, rfl, ?_⟩
  · simp [parse_single_article, hjson]
  · rw [parse_docx_civil_code, parse_docx_loop_eq svc articles 0 []]
    simp [List.enumFrom_length]

/-- C6 witness: the spec scenario — the non-JSON reply at zero-based index 2
yields the `Failed to parse JSON for article 3` record carrying the raw
response, an exception yields the generic record, and a 4-unit run still
produces 4 records. -/
theorem extraction_failure_taxonomy_witness :
    parse_single_article (.response "抱歉，我无法处理") 2 =
      PyVal.dict [("error", .str "Failed to parse JSON for article 3"),
             ("raw_response", .str "抱歉，我无法处理")] ∧
    parse_single_article (.raised "Connection timed out") 2 =
      PyVal.dict [("error", .str "Other error for article 3")] ∧
    (parse_docx_civil_code
        (fun j _ => if j = 2 then .response "抱歉，我无法处理" else .response "{}")
        [⟨"第一条", "甲"⟩, ⟨"第二条", "乙"⟩, ⟨"第三条", "丙"⟩, ⟨"第四条", "丁"⟩]).length = 4 :=
  extraction_failure_taxonomy "抱歉，我无法处理" "Connection timed out" 2 _ _ rfl

/-! ## Step equations for the segmenter loops -/
lemma extract_pdf_go_nil_flush {cur : ArticleUnit} {acc : List ArticleUnit}
    (h : cur.title ≠ "") : extract_pdf_go cur acc [] = acc ++ [cur] := by
  simp only [extract_pdf_go, if_pos h]

lemma extract_pdf_go_nil_skip {cur : ArticleUnit} {acc : List ArticleUnit}
    (h : cur.title = "") : extract_pdf_go cur acc [] = acc := by
  have : ¬ cur.title ≠ "" := fun hne => hne h
  simp only [extract_pdf_go, if_neg this]

lemma extract_pdf_go_cons_blank {b : String} {rest : List String}
    {cur : ArticleUnit} {acc : List ArticleUnit} (h : py_strip b = "") :
    extract_pdf_go cur acc (b :: rest) = extract_pdf_go cur acc rest := by
  simp only [extract_pdf_go, if_pos h]

lemma extract_pdf_go_cons_marker {b : String} {rest : List String}
    {cur : ArticleUnit} {acc : List ArticleUnit}
    (h1 : ¬ py_strip b = "") (h2 : matches_here (py_strip b).data = true) :
    extract_pdf_go cur acc (b :: rest) =
      extract_pdf_go ⟨py_strip b, ""⟩ (if cur.title ≠ "" then acc ++ [cur] else acc) rest := by
  simp only [extract_pdf_go, if_neg h1, if_pos h2]

lemma extract_pdf_go_cons_text_titled {b : String} {rest : List String}
    {cur : ArticleUnit} {acc : List ArticleUnit}
    (h1 : ¬ py_strip b = "") (h2 : ¬ matches_here (py_strip b).data = true)
    (h3 : cur.title ≠ "") :
    extract_pdf_go cur acc (b :: rest) =
      extract_pdf_go
        ⟨cur.title, if cur.content = "" then py_strip b else cur.content ++ "\n" ++ py_strip b⟩
        acc rest := by
  simp only [extract_pdf_go, if_neg h1, if_neg h2, if_pos h3]

lemma extract_pdf_go_cons_text_untitled {b : String} {rest : List String}
    {cur : ArticleUnit} {acc : List ArticleUnit}
    (h1 : ¬ py_strip b = "") (h2 : ¬ matches_here (py_strip b).data = true)
    (h3 : cur.title = "") :
    extract_pdf_go cur acc (b :: rest) = extract_pdf_go cur acc rest := by
  have h3' : ¬ cur.title ≠ "" := fun hne => hne h3
  simp only [extract_pdf_go, if_neg h1, if_neg h2, if_neg h3']

lemma extract_docx_go_nil_flush {cur : ArticleUnit} {acc : List ArticleUnit}
    (h : cur.title ≠ "") : extract_docx_go cur acc [] = acc ++ [cur] := by
  simp only [extract_docx_go, if_pos h]

lemma extract_docx_go_nil_skip {cur : ArticleUnit} {acc : List ArticleUnit}
    (h : cur.title = "") : extract_docx_go cur acc [] = acc := by
  have : ¬ cur.title ≠ "" := fun hne => hne h
  simp only [extract_docx_go, if_neg this]

lemma extract_docx_go_cons_blank {b : String} {rest : List String}
    {cur : ArticleUnit} {acc : List ArticleUnit} (h : py_strip b = "") :
    extract_docx_go cur acc (b :: rest) = extract_docx_go cur acc rest := by
  simp only [extract_docx_go, if_pos h]

lemma extract_docx_go_cons_marker {b : String} {rest : List String}
    {cur : ArticleUnit} {acc : List ArticleUnit}
    (h1 : ¬ py_strip b = "") (h2 : matches_here (py_strip b).data = true) :
    extract_docx_go cur acc (b :: rest) =
      extract_docx_go (split_title_content (py_strip b))
        (if cur.title ≠ "" then acc ++ [cur] else acc) rest := by
  simp only [extract_docx_go, if_neg h1, if_pos h2]

lemma extract_docx_go_cons_text_titled {b : String} {rest : List String}
    {cur : ArticleUnit} {acc : List ArticleUnit}
    (h1 : ¬ py_strip b = "") (h2 : ¬ matches_here (py_strip b).data = true)
    (h3 : cur.title ≠ "") :
    extract_docx_go cur acc (b :: rest) =
      extract_docx_go
        ⟨cur.title, if cur.content = "" then py_strip b else cur.content ++ "\n" ++ py_strip b⟩
        acc rest := by
  simp only [extract_docx_go, if_neg h1, if_neg h2, if_pos h3]

lemma extract_docx_go_cons_text_untitled {b : String} {rest : List String}
    {cur : ArticleUnit} {acc : List ArticleUnit}
    (h1 : ¬ py_strip b = "") (h2 : ¬ matches_here (py_strip b).data = true)
    (h3 : cur.title = "") :
    extract_docx_go cur acc (b :: rest) = extract_docx_go cur acc rest := by
  have h3' : ¬ cur.title ≠ "" := fun hne => hne h3
  simp only [extract_docx_go, if_neg h1, if_neg h2, if_neg h3']

/-! ## C3: the two segmenters on equivalent input -/
lemma string_mk_data (s : String) : String.mk s.data = s := by
  cases s
  rfl

/-- C3 counterexample: on the equivalent one-block input `"第一条 内容"`, the
line-oriented (pdf) segmenter keeps the whole marker line as the title with
empty initial content, while the paragraph-oriented (docx) segmenter splits
off the bare marker token and moves the trailing text into content — the two
ArticleUnit sequences differ. -/
theorem segmenters_differ_on_trailing_text :
    extract_articles_from_pdf_lines ["第一条 内容"] ≠
      extract_articles_from_docx ["第一条 内容"] := by
  decide

lemma split_title_content_of_bare {s : String} (hb : bare_marker_block s = true) :
    split_title_content (py_strip s) = ⟨py_strip s, ""⟩ := by
  unfold split_title_content
  cases hmm : match_marker_len (py_strip s).data with
  | none => rfl
  | some n =>
    unfold bare_marker_block at hb
    rw [hmm] at hb
    have hlen : (py_strip s).data.length = n := by simpa using hb
    have htake : (py_strip s).data.take n = (py_strip s).data := by
      rw [← hlen]
      exact List.take_length _
    have hdrop : (py_strip s).data.drop n = [] := by
      rw [← hlen]
      exact List.drop_length _
    simp only [htake, hdrop, List.dropWhile_nil, List.takeWhile_nil, string_mk_data]
    rfl

lemma matches_strip_ne {t : String} (hm : matches_here t.data = true) : t ≠ "" := by
  intro he
  rw [he] at hm
  exact Bool.noConfusion (matches_here_nil ▸ hm)

lemma split_title_content_title_ne {t : String} (hm : matches_here t.data = true) :
    (split_title_content t).title ≠ "" := by
  obtain ⟨n, hn⟩ := Option.isSome_iff_exists.mp hm
  obtain ⟨ds, tail, hdec, -, -, hlen⟩ := match_marker_some_iff.mp hn
  unfold split_title_content
  rw [hn]
  intro he
  have hdata : t.data.take n = [] := by
    have := congrArg String.data he
    simpa using this
  rw [hdec, hlen] at hdata
  simp [List.take_cons] at hdata

lemma extract_go_eq_of_bare :
    ∀ (blocks : List String) (cur : ArticleUnit) (acc : List ArticleUnit),
      (∀ b ∈ blocks, bare_marker_block b = true) →
      extract_pdf_go cur acc blocks = extract_docx_go cur acc blocks := by
  intro blocks
  induction blocks with
  | nil => intro cur acc _; rfl
  | cons b rest ih =>
    intro cur acc hb
    have hbb : bare_marker_block b = true := hb b (by simp)
    have hrest : ∀ x ∈ rest, bare_marker_block x = true := fun x hx => hb x (by simp [hx])
    by_cases h1 : py_strip b = ""
    · rw [extract_pdf_go_cons_blank h1, extract_docx_go_cons_blank h1]
      exact ih cur acc hrest
    · by_cases h2 : matches_here (py_strip b).data = true
      · rw [extract_pdf_go_cons_marker h1 h2, extract_docx_go_cons_marker h1 h2,
            split_title_content_of_bare hbb]
        exact ih _ _ hrest
      · by_cases h3 : cur.title = ""
        · rw [extract_pdf_go_cons_text_untitled h1 h2 h3,
              extract_docx_go_cons_text_untitled h1 h2 h3]
          exact ih cur acc hrest
        · rw [extract_pdf_go_cons_text_titled h1 h2 h3,
              extract_docx_go_cons_text_titled h1 h2 h3]
          exact ih _ _ hrest

lemma push_length_eq {curP curD : ArticleUnit} {accP accD : List ArticleUnit}
    (hiff : curP.title = "" ↔ curD.title = "") (hlen : accP.length = accD.length) :
    (if curP.title ≠ "" then accP ++ [curP] else accP).length =
      (if curD.title ≠ "" then accD ++ [curD] else accD).length := by
  by_cases h : curP.title = ""
  · rw [if_neg (fun hne => hne h), if_neg (fun hne => hne (hiff.mp h))]
    exact hlen
  · rw [if_pos h, if_pos (fun he => h (hiff.mpr he))]
    simp [hlen]

lemma extract_go_length_eq :
    ∀ (blocks : List String) (curP curD : ArticleUnit) (accP accD : List ArticleUnit),
      (curP.title = "" ↔ curD.title = "") → accP.length = accD.length →
      (extract_pdf_go curP accP blocks).length = (extract_docx_go curD accD blocks).length := by
  intro blocks
  induction blocks with
  | nil =>
    intro curP curD accP accD hiff hlen
    by_cases h : curP.title = ""
    · rw [extract_pdf_go_nil_skip h, extract_docx_go_nil_skip (hiff.mp h)]
      exact hlen
    · rw [extract_pdf_go_nil_flush h, extract_docx_go_nil_flush (fun he => h (hiff.mpr he))]
      simp [hlen]
  | cons b rest ih =>
    intro curP curD accP accD hiff hlen
    by_cases h1 : py_strip b = ""
    · rw [extract_pdf_go_cons_blank h1, extract_docx_go_cons_blank h1]
      exact ih curP curD accP accD hiff hlen
    · by_cases h2 : matches_here (py_strip b).data = true
      · rw [extract_pdf_go_cons_marker h1 h2, extract_docx_go_cons_marker h1 h2]
        refine ih _ _ _ _ ?_ (push_length_eq hiff hlen)
        constructor
        · intro he; exact absurd he h1
        · intro he; exact absurd he (split_title_content_title_ne h2)
      · by_cases h3 : curP.title = ""
        · rw [extract_pdf_go_cons_text_untitled h1 h2 h3,
              extract_docx_go_cons_text_untitled h1 h2 (hiff.mp h3)]
          exact ih curP curD accP accD hiff hlen
        · rw [extract_pdf_go_cons_text_titled h1 h2 h3,
              extract_docx_go_cons_text_titled h1 h2 (fun he => h3 (hiff.mpr he))]
          exact ih _ _ accP accD (by simpa using hiff) hlen

/-- C3 amended: on equivalent input (the same delivered text blocks, each
stripped and blank-skipped identically by both loops) the two segmenters
always produce the same number of units; the unit sequences are identical
exactly when every marker block is a bare marker token — when a marker block
carries trailing text the pdf path keeps the whole block as the title with
empty initial content while the docx path splits it, so the (title, content)
pairs differ. -/
theorem segmenters_equivalence (blocks : List String) :
    (extract_articles_from_pdf_lines blocks).length =
      (extract_articles_from_docx blocks).length ∧
    ((∀ b ∈ blocks, bare_marker_block b = true) →
      extract_articles_from_pdf_lines blocks = extract_articles_from_docx blocks) := by
  constructor
  · exact extract_go_length_eq blocks _ _ _ _ Iff.rfl rfl
  · intro hb
    exact extract_go_eq_of_bare blocks _ _ hb

/-- C3 witness: a concrete bare-marker input on which the two segmenters
coincide. -/
theorem segmenters_equivalence_witness :
    extract_articles_from_pdf_lines ["第一条", "正文甲", "第二条"] =
      extract_articles_from_docx ["第一条", "正文甲", "第二条"] :=
  (segmenters_equivalence _).2 (by decide)

/-! ## C2: segmentation completeness -/
lemma extract_pdf_go_titles :
    ∀ (blocks : List String) (cur : ArticleUnit) (acc : List ArticleUnit),
      (extract_pdf_go cur acc blocks).map ArticleUnit.title =
        acc.map ArticleUnit.title ++ (if cur.title = "" then [] else [cur.title]) ++
          (blocks.map py_strip).filter (fun s => matches_here s.data) := by
  intro blocks
  induction blocks with
  | nil =>
    intro cur acc
    by_cases h : cur.title = ""
    · rw [extract_pdf_go_nil_skip h, if_pos h]
      simp
    · rw [extract_pdf_go_nil_flush h, if_neg h]
      simp
  | cons b rest ih =>
    intro cur acc
    simp only [List.map_cons, List.filter_cons]
    by_cases h1 : py_strip b = ""
    · have hm : ¬ (matches_here (py_strip b).data = true) := by
        rw [h1]
        intro hx
        exact Bool.noConfusion (matches_here_nil ▸ hx)
      rw [extract_pdf_go_cons_blank h1, ih, if_neg hm]
    · by_cases h2 : matches_here (py_strip b).data = true
      · rw [extract_pdf_go_cons_marker h1 h2, ih, if_pos h2]
        by_cases h3 : cur.title = ""
        · rw [if_pos h3, if_neg (fun hne : cur.title ≠ "" => hne h3), if_neg h1]
          simp
        · rw [if_neg h3, if_pos (h3 : cur.title ≠ "")]
          simp [if_neg h1]
      · rw [if_neg h2]
        by_cases h3 : cur.title = ""
        · rw [extract_pdf_go_cons_text_untitled h1 h2 h3, ih]
        · rw [extract_pdf_go_cons_text_titled h1 h2 h3, ih, if_neg h3]

/-- C2: for every normalized text — one in which the total number of marker
occurrences equals the number of its stripped lines that begin with the
marker, which is what the forced newline insertion of the normalizer
establishes — containing exactly k marker occurrences, the line-oriented
segmenter yields exactly k units, every unit in the output has a non-empty
title, and the unit titles are exactly the stripped marker lines in original
document order. -/
theorem segmentation_completeness (t : String) (k : Nat)
    (hnorm : count_markers t.data =
      ((pdf_lines t).map py_strip).countP (fun s => matches_here s.data))
    (hk : count_markers t.data = k) :
    (segment_pdf_text t).length = k ∧
    (∀ u ∈ segment_pdf_text t, u.title ≠ "") ∧
    (segment_pdf_text t).map ArticleUnit.title =
      ((pdf_lines t).map py_strip).filter (fun s => matches_here s.data) := by
  have htitles := extract_pdf_go_titles (pdf_lines t) ⟨"", ""⟩ []
  simp only [List.map_nil, List.nil_append, if_pos rfl] at htitles
  have htitles' : (segment_pdf_text t).map ArticleUnit.title =
      ((pdf_lines t).map py_strip).filter (fun s => matches_here s.data) := by
    rw [segment_pdf_text]
    simpa using htitles
  refine ⟨?_, ?_, htitles'⟩
  · have hlen : (segment_pdf_text t).length =
        ((segment_pdf_text t).map ArticleUnit.title).length := (List.length_map _ _).symm
    rw [hlen, htitles', ← List.countP_eq_length_filter, ← hnorm, hk]
  · intro u hu
    have hmem : u.title ∈ ((pdf_lines t).map py_strip).filter (fun s => matches_here s.data) := by
      rw [← htitles']
      exact List.mem_map_of_mem ArticleUnit.title hu
    have hp : matches_here u.title.data = true := by
      simpa using List.of_mem_filter hmem
    exact matches_strip_ne hp

/-- C2 witness: a three-line normalized text with two marker lines yields
exactly two units. -/
theorem segmentation_completeness_witness :
    count_markers ("第一条\n正文甲\n第二条").data =
      ((pdf_lines "第一条\n正文甲\n第二条").map py_strip).countP
        (fun s => matches_here s.data) ∧
    (segment_pdf_text "第一条\n正文甲\n第二条").length = 2 :=
  ⟨by decide, (segmentation_completeness _ 2 (by decide) (by decide)).1⟩

lemma extract_info_go_error_step {fs : List (String × PyVal)} {st : ArticleStats} {i : Nat}
    {rest : List PyVal} (herr : has_key fs "error" = true) :
    extract_info_go st i (PyVal.dict fs :: rest) =
      extract_info_go
        { st with error_articles := st.error_articles ++ [⟨i, dict_get fs "error" (.str "未知错误")⟩] }
        (i + 1) rest := by
  simp [extract_info_go, herr]

lemma extract_info_go_valid_nosample_step {fs : List (String × PyVal)} {st : ArticleStats}
    {i : Nat} {rest : List PyVal} (herr : has_key fs "error" = false)
    (hlen : ¬ st.sample_articles.length < 5) :
    extract_info_go st i (PyVal.dict fs :: rest) =
      extract_info_go (stats_bump st fs) (i + 1) rest := by
  by_cases hc : py_truthy (dict_get fs "content" .none) = true <;>
    by_cases hs : py_truthy (dict_get fs "summary" .none) = true <;>
      by_cases hk : py_truthy (dict_get fs "keywords" .none) = true <;>
        simp [extract_info_go, herr, hc, hs, hk, hlen, stats_bump]

lemma extract_info_go_valid_sample_step {fs : List (String × PyVal)} {st : ArticleStats}
    {i : Nat} {rest : List PyVal} {e : SampleEntry} (herr : has_key fs "error" = false)
    (hlen : st.sample_articles.length < 5) (hsamp : sample_of i fs = some e) :
    extract_info_go st i (PyVal.dict fs :: rest) =
      extract_info_go
        { stats_bump st fs with sample_articles := st.sample_articles ++ [e] } (i + 1) rest := by
  unfold sample_of at hsamp
  match hc1 : py_len (dict_get fs "content" (.str "")),
        hk1 : py_len (dict_get fs "keywords" (.list [])) with
  | Option.none, _ => rw [hc1] at hsamp; exact absurd hsamp (by simp)
  | some cl, Option.none => rw [hc1, hk1] at hsamp; exact absurd hsamp (by simp)
  | some cl, some kc =>
    rw [hc1, hk1] at hsamp
    have he : e = ⟨dict_get fs "article_number" (.str ("第" ++ toString (i + 1) ++ "条")),
        cl, py_truthy (dict_get fs "summary" .none), kc⟩ := by
      have := Option.some.inj hsamp
      exact this.symm
    subst he
    by_cases hc : py_truthy (dict_get fs "content" .none) = true <;>
      by_cases hs : py_truthy (dict_get fs "summary" .none) = true <;>
        by_cases hk : py_truthy (dict_get fs "keywords" .none) = true <;>
          simp [extract_info_go, herr, hc, hs, hk, hlen, hc1, hk1, stats_bump]

lemma extract_info_go_valid_fail_step {fs : List (String × PyVal)} {st : ArticleStats}
    {i : Nat} {rest : List PyVal} (herr : has_key fs "error" = false)
    (hlen : st.sample_articles.length < 5) (hsamp : sample_of i fs = Option.none) :
    extract_info_go st i (PyVal.dict fs :: rest) = .failed := by
  unfold sample_of at hsamp
  by_cases hc : py_truthy (dict_get fs "content" .none) = true <;>
    by_cases hs : py_truthy (dict_get fs "summary" .none) = true <;>
      by_cases hk : py_truthy (dict_get fs "keywords" .none) = true <;>
        (simp only [extract_info_go, herr, hc, hs, hk, Bool.false_eq_true, if_false, if_true,
          if_pos hlen]
         match hc1 : py_len (dict_get fs "content" (.str "")),
               hk1 : py_len (dict_get fs "keywords" (.list [])) with
         | Option.none, _ => simp [hc1]
         | some cl, Option.none => simp [hc1, hk1]
         | some cl, some kc => rw [hc1, hk1] at hsamp; exact absurd hsamp (by simp))

lemma extract_info_go_spec :
    ∀ (data : List PyVal) (st : ArticleStats) (i : Nat),
      (∀ v ∈ data, is_dict v = true) → (∀ v ∈ data, sample_ok v = true) →
      extract_info_go st i data = .ok
        { total_articles := st.total_articles
          valid_articles := st.valid_articles + data.countP is_valid_record
          articles_with_content :=
            st.articles_with_content + data.countP (valid_with "content")
          articles_with_summary :=
            st.articles_with_summary + data.countP (valid_with "summary")
          articles_with_keywords :=
            st.articles_with_keywords + data.countP (valid_with "keywords")
          sample_articles := st.sample_articles ++
            (((List.enumFrom i data).filter (fun p => is_valid_record p.2)).take
                (5 - st.sample_articles.length)).filterMap
              (fun p => match p.2 with
                | .dict fs => sample_of p.1 fs
                | _ => Option.none)
          error_articles := st.error_articles ++
            (List.enumFrom i data).filterMap (fun p =>
              match p.2 with
              | .dict fs =>
                if has_key fs "error" then some ⟨p.1, dict_get fs "error" (.str "未知错误")⟩
                else Option.none
              | _ => Option.none) } := by
  intro data
  induction data with
  | nil =>
    intro st i _ _
    simp [extract_info_go]
  | cons v rest ih =>
    intro st i hdict hok
    have hvd : is_dict v = true := hdict v (by simp)
    have hvo : sample_ok v = true := hok v (by simp)
    have hrestd : ∀ x ∈ rest, is_dict x = true := fun x hx => hdict x (by simp [hx])
    have hresto : ∀ x ∈ rest, sample_ok x = true := fun x hx => hok x (by simp [hx])
    match v with
    | .dict fs =>
      by_cases herr : has_key fs "error" = true
      · rw [extract_info_go_error_step herr, ih _ _ hrestd hresto]
        simp only [List.enumFrom_cons, List.filter_cons, List.filterMap_cons,
          List.countP_cons, is_valid_record, valid_with, herr]
        simp [List.append_assoc]
      · have herr' : has_key fs "error" = false := by
          cases hx : has_key fs "error" with
          | true => exact absurd hx herr
          | false => rfl
        have hsized : (py_len (dict_get fs "content" (.str ""))).isSome = true ∧
            (py_len (dict_get fs "keywords" (.list []))).isSome = true := by
          simp only [sample_ok, herr'] at hvo
          simpa using hvo
        have hsome : ∃ e, sample_of i fs = some e := by
          obtain ⟨h1, h2⟩ := hsized
          obtain ⟨cl, hcl⟩ := Option.isSome_iff_exists.mp h1
          obtain ⟨kc, hkc⟩ := Option.isSome_iff_exists.mp h2
          exact ⟨_, by unfold sample_of; rw [hcl, hkc]⟩
        by_cases hlen : st.sample_articles.length < 5
        · obtain ⟨e, he⟩ := hsome
          rw [extract_info_go_valid_sample_step herr' hlen he, ih _ _ hrestd hresto]
          simp only [List.enumFrom_cons, List.filter_cons, List.filterMap_cons,
            List.countP_cons, is_valid_record, valid_with, herr']
          have hcap : 5 - st.sample_articles.length = (5 - (st.sample_articles.length + 1)) + 1 := by
            omega
          simp only [stats_bump, hcap]
          simp [List.take_succ_cons, he, List.append_assoc]
          constructor <;> [skip; constructor] <;> [omega; omega; skip]
          constructor <;> omega
        · rw [extract_info_go_valid_nosample_step herr' hlen, ih _ _ hrestd hresto]
          have hcap : 5 - st.sample_articles.length = 0 := by omega
          simp only [List.enumFrom_cons, List.filter_cons, List.filterMap_cons,
            List.countP_cons, is_valid_record, valid_with, herr']
          simp only [stats_bump, hcap]
          simp [List.take_succ_cons, List.append_assoc]
          constructor <;> [skip; constructor] <;> [omega; omega; skip]
          constructor <;> omega

/-- C9 counterexample: a valid record whose `content` is `null` (exactly what
the extraction contract prescribes for a missing field) makes
`len(item.get("content", ""))` raise, so the pass returns the except-branch
fallback dict instead of the claimed report; and a record that has both an
error marker and a non-empty `content` is not counted by
`articles_with_content`, although the claim counts every record with
non-empty content. -/
theorem validation_statistics_crash :
    extract_articles_info [PyVal.dict [("content", PyVal.none)]] = InfoResult.failed ∧
    extract_articles_info [PyVal.dict [("error", PyVal.str "x"), ("content", PyVal.str "y")]] =
      InfoResult.ok ⟨1, 0, 0, 0, 0, [], [⟨0, PyVal.str "x"⟩]⟩ :=
  ⟨rfl, rfl⟩

/-- C9 amended: for every list of records (mappings) in which each non-error
record carries `len()`-supporting `content` and `keywords` values (when
present), the pass reports the total record count (the list's length), the
count of records lacking an error marker, the counts of non-error records
with truthy `content`/`summary`/`keywords`, a sample of at most the first
five valid records, and the list of error records with their indices; the
pass never mutates a record (it only reads them).  When a sampled value does
not support `len()` the pass instead returns its except-branch fallback
dict. -/
theorem validation_statistics (data : List PyVal)
    (hdict : ∀ v ∈ data, is_dict v = true)
    (hok : ∀ v ∈ data, sample_ok v = true) :
    extract_articles_info data = .ok (stats_spec data) := by
  rw [extract_articles_info, extract_info_go_spec data _ 0 hdict hok]
  simp [stats_spec, List.enum]

/-- C9 witness: a two-record list (one valid with content, one error record)
yields the spec report. -/
theorem validation_statistics_witness :
    extract_articles_info
        [PyVal.dict [("content", PyVal.str "甲")], PyVal.dict [("error", PyVal.str "boom")]] =
      .ok (stats_spec
        [PyVal.dict [("content", PyVal.str "甲")], PyVal.dict [("error", PyVal.str "boom")]]) :=
  validation_statistics _ (by decide) (by decide)

/-! ## C5: idempotence of the normalizer -/
/-- C5 counterexample: a second normalization pass inserts a second newline
before the (non-initial) marker — the newline-run collapse happens before
the marker-newline insertion, so the insertion of the previous pass is
doubled rather than recognised. -/
theorem normalization_not_idempotent :
    clean_pdf_text (clean_pdf_text "a第一条") ≠ clean_pdf_text "a第一条" := by
  decide

lemma coll_sp_cons_head (c : Char) (rest : List Char) :
    ∃ t, coll_sp (c :: rest) = c :: t := by
  induction rest generalizing c with
  | nil => exact ⟨[], rfl⟩
  | cons c2 r ih =>
    by_cases hif : c = ' ' ∧ c2 = ' '
    · obtain ⟨t, ht⟩ := ih c2
      refine ⟨t, ?_⟩
      rw [coll_sp, if_pos hif, ht, hif.1, hif.2]
    · rw [coll_sp, if_neg hif]
      exact ⟨_, rfl⟩

lemma coll_nl_cons_head (c : Char) (rest : List Char) :
    ∃ t, coll_nl (c :: rest) = c :: t := by
  induction rest generalizing c with
  | nil => exact ⟨[], rfl⟩
  | cons c2 r ih =>
    by_cases hif : c = '\n' ∧ c2 = '\n'
    · obtain ⟨t, ht⟩ := ih c2
      refine ⟨t, ?_⟩
      rw [coll_nl, if_pos hif, ht, hif.1, hif.2]
    · rw [coll_nl, if_neg hif]
      exact ⟨_, rfl⟩

lemma mem_coll_sp {l : List Char} {c : Char} (h : c ∈ coll_sp l) : c ∈ l := by
  induction l using coll_sp.induct with
  | case1 => simp [coll_sp] at h
  | case2 d => simpa [coll_sp] using h
  | case3 c1 c2 rest hif ih =>
    rw [coll_sp, if_pos hif] at h
    exact List.mem_cons_of_mem _ (ih h)
  | case4 c1 c2 rest hif ih =>
    rw [coll_sp, if_neg hif] at h
    rcases List.mem_cons.mp h with rfl | h2
    · exact List.mem_cons_self _ _
    · exact List.mem_cons_of_mem _ (ih h2)

lemma mem_coll_nl {l : List Char} {c : Char} (h : c ∈ coll_nl l) : c ∈ l := by
  induction l using coll_nl.induct with
  | case1 => simp [coll_nl] at h
  | case2 d => simpa [coll_nl] using h
  | case3 c1 c2 rest hif ih =>
    rw [coll_nl, if_pos hif] at h
    exact List.mem_cons_of_mem _ (ih h)
  | case4 c1 c2 rest hif ih =>
    rw [coll_nl, if_neg hif] at h
    rcases List.mem_cons.mp h with rfl | h2
    · exact List.mem_cons_self _ _
    · exact List.mem_cons_of_mem _ (ih h2)

lemma coll_sp_chain (l : List Char) : List.Chain' no_sp_pair (coll_sp l) := by
  induction l using coll_sp.induct with
  | case1 => simp [coll_sp]
  | case2 d => simp [coll_sp]
  | case3 c1 c2 rest hif ih => rw [coll_sp, if_pos hif]; exact ih
  | case4 c1 c2 rest hif ih =>
    rw [coll_sp, if_neg hif]
    obtain ⟨t, ht⟩ := coll_sp_cons_head c2 rest
    rw [ht]
    rw [ht] at ih
    exact List.chain'_cons.mpr ⟨hif, ih⟩

lemma coll_nl_chain (l : List Char) : List.Chain' no_nl_pair (coll_nl l) := by
  induction l using coll_nl.induct with
  | case1 => simp [coll_nl]
  | case2 d => simp [coll_nl]
  | case3 c1 c2 rest hif ih => rw [coll_nl, if_pos hif]; exact ih
  | case4 c1 c2 rest hif ih =>
    rw [coll_nl, if_neg hif]
    obtain ⟨t, ht⟩ := coll_nl_cons_head c2 rest
    rw [ht]
    rw [ht] at ih
    exact List.chain'_cons.mpr ⟨hif, ih⟩

/-- Every adjacent pair of the collapsed list was adjacent in the input, so
any adjacency invariant survives the newline collapse. -/
lemma chain_coll_nl_any {R : Char → Char → Prop} {l : List Char}
    (h : List.Chain' R l) : List.Chain' R (coll_nl l) := by
  induction l using coll_nl.induct with
  | case1 => simp [coll_nl]
  | case2 d => simp [coll_nl]
  | case3 c1 c2 rest hif ih => rw [coll_nl, if_pos hif]; exact ih h.tail
  | case4 c1 c2 rest hif ih =>
    rw [coll_nl, if_neg hif]
    obtain ⟨t, ht⟩ := coll_nl_cons_head c2 rest
    rw [ht]
    have h2 := ih h.tail
    rw [ht] at h2
    exact List.chain'_cons.mpr ⟨(List.chain'_cons.mp h).1, h2⟩

lemma coll_sp_id {l : List Char} (h : List.Chain' no_sp_pair l) : coll_sp l = l := by
  induction l using coll_sp.induct with
  | case1 => rfl
  | case2 d => rfl
  | case3 c1 c2 rest hif ih => exact absurd hif (List.chain'_cons.mp h).1
  | case4 c1 c2 rest hif ih =>
    rw [coll_sp, if_neg hif, ih h.tail]

lemma coll_nl_id {l : List Char} (h : List.Chain' no_nl_pair l) : coll_nl l = l := by
  induction l using coll_nl.induct with
  | case1 => rfl
  | case2 d => rfl
  | case3 c1 c2 rest hif ih => exact absurd hif (List.chain'_cons.mp h).1
  | case4 c1 c2 rest hif ih =>
    rw [coll_nl, if_neg hif, ih h.tail]

lemma ins_nl_id {l : List Char} (h : has_marker l = false) : ins_nl l = l := by
  induction l with
  | nil => rfl
  | cons c rest ih =>
    rw [has_marker] at h
    have h1 : matches_here (c :: rest) = false := by
      cases hx : matches_here (c :: rest) with
      | true => rw [hx] at h; simp at h
      | false => rfl
    have h2 : has_marker rest = false := by
      cases hx : has_marker rest with
      | true => rw [hx] at h; simp at h
      | false => rfl
    rw [ins_nl, if_neg (by rw [h1]; exact fun hx => Bool.noConfusion hx), ih h2]

/-! Strip-related lemmas. -/
lemma length_dropWhile_le (p : Char → Bool) (l : List Char) :
    (l.dropWhile p).length ≤ l.length := by
  induction l with
  | nil => simp
  | cons c rest ih =>
    rw [List.dropWhile_cons]
    by_cases hc : p c = true
    · rw [if_pos hc]
      exact Nat.le_succ_of_le ih
    · rw [if_neg hc]

lemma ltrim_decomp (l : List Char) : ∃ a, l = a ++ ltrim l :=
  ⟨l.takeWhile py_ws, (List.takeWhile_append_dropWhile py_ws l).symm⟩

lemma rtrim_decomp (l : List Char) : ∃ b, l = rtrim l ++ b := by
  refine ⟨(l.reverse.takeWhile py_ws).reverse, ?_⟩
  rw [rtrim, ← List.reverse_append, List.takeWhile_append_dropWhile, List.reverse_reverse]

lemma strip_decomp (l : List Char) : ∃ a b, l = a ++ strip_chars l ++ b := by
  obtain ⟨a, ha⟩ := ltrim_decomp l
  obtain ⟨b, hb⟩ := rtrim_decomp (ltrim l)
  refine ⟨a, b, ?_⟩
  rw [strip_chars, List.append_assoc, ← hb, ← ha]

lemma ltrim_idem (l : List Char) : ltrim (ltrim l) = ltrim l :=
  List.dropWhile_idempotent _ _

lemma rtrim_idem (l : List Char) : rtrim (rtrim l) = rtrim l := by
  unfold rtrim
  rw [List.reverse_reverse, List.dropWhile_idempotent]

lemma ltrim_eq_self_of_cons {c : Char} {t : List Char} (hc : py_ws c = false) :
    ltrim (c :: t) = c :: t := by
  rw [ltrim, List.dropWhile_cons, if_neg (by rw [hc]; exact fun hx => Bool.noConfusion hx)]

lemma strip_idem (l : List Char) : strip_chars (strip_chars l) = strip_chars l := by
  unfold strip_chars
  have h1 : ltrim (ltrim l) = ltrim l := ltrim_idem l
  -- `ltrim` leaves `rtrim (ltrim l)` unchanged: its head, if any, is the head
  -- of `ltrim l`, which `ltrim` already certified as non-whitespace.
  have h2 : ltrim (rtrim (ltrim l)) = rtrim (ltrim l) := by
    cases hy : ltrim l with
    | nil =>
      have : rtrim ([] : List Char) = [] := rfl
      rw [this]
      rfl
    | cons c t =>
      have hc : py_ws c = false := by
        have := h1
        rw [hy] at this
        by_cases hpc : py_ws c = true
        · rw [ltrim, List.dropWhile_cons, if_pos hpc] at this
          have hlen := congrArg List.length this
          have hle := length_dropWhile_le py_ws t
          simp at hlen
          omega
        · cases hx : py_ws c with
          | true => exact absurd hx hpc
          | false => rfl
      cases hrt : rtrim (c :: t) with
      | nil => rfl
      | cons c2 t2 =>
        have hc2 : c2 = c := by
          obtain ⟨b, hb⟩ := rtrim_decomp (c :: t)
          rw [hrt] at hb
          exact (List.cons.inj hb).1.symm
        rw [ltrim_eq_self_of_cons (hc2 ▸ hc)]
  rw [h2, rtrim_idem]

lemma chain_append_right {R : Char → Char → Prop} :
    ∀ {a b : List Char}, List.Chain' R (a ++ b) → List.Chain' R b := by
  intro a
  induction a with
  | nil => intro b h; exact h
  | cons c rest ih => intro b h; exact ih h.tail

lemma chain_append_left {R : Char → Char → Prop} :
    ∀ {a b : List Char}, List.Chain' R (a ++ b) → List.Chain' R a := by
  intro a
  induction a with
  | nil => intro b _; simp
  | cons c rest ih =>
    intro b h
    match rest with
    | [] => simp
    | c2 :: rest2 =>
      have h1 : R c c2 := (List.chain'_cons.mp h).1
      exact List.chain'_cons.mpr ⟨h1, ih h.tail⟩

lemma chain_strip {R : Char → Char → Prop} {l : List Char} (h : List.Chain' R l) :
    List.Chain' R (strip_chars l) := by
  obtain ⟨a, b, hab⟩ := strip_decomp l
  rw [hab] at h
  exact chain_append_right (chain_append_left h)

lemma mem_strip {l : List Char} {c : Char} (h : c ∈ strip_chars l) : c ∈ l := by
  obtain ⟨a, b, hab⟩ := strip_decomp l
  rw [hab]
  simp [h]

/-! Line-ending replacement lemmas. -/
lemma no_cr_repl_cr (l : List Char) : '\r' ∉ repl_cr l := by
  intro h
  rw [repl_cr] at h
  obtain ⟨a, -, ha⟩ := List.mem_map.mp h
  by_cases hc : a = '\r'
  · rw [if_pos hc] at ha
    exact absurd ha (by decide)
  · rw [if_neg hc] at ha
    exact hc ha

lemma repl_crlf_id {l : List Char} (h : '\r' ∉ l) : repl_crlf l = l := by
  induction l using repl_crlf.induct with
  | case1 rest ih => exact absurd (by simp) h
  | case2 c rest hne ih =>
    rw [repl_crlf]
    · rw [ih (fun hx => h (List.mem_cons_of_mem c hx))]
    · exact hne
  | case3 => rfl

lemma map_cr_id {l : List Char} (h : '\r' ∉ l) :
    l.map (fun c => if c = '\r' then '\n' else c) = l := by
  induction l with
  | nil => rfl
  | cons c rest ih =>
    have hc : ¬ c = '\r' := fun he => h (he ▸ List.mem_cons_self c rest)
    rw [List.map_cons, if_neg hc, ih (fun hx => h (List.mem_cons_of_mem c hx))]

lemma repl_cr_id {l : List Char} (h : '\r' ∉ l) : repl_cr l = l := by
  rw [repl_cr, repl_crlf_id h, map_cr_id h]

/-! Marker-occurrence transfer: the collapse and replacement passes neither
create nor destroy marker occurrences (marker characters are never spaces,
newlines or carriage returns, and each pass keeps at least one separator
character from every run it shrinks). -/
lemma takeWhile_append_all {p : Char → Bool} {a : List Char} (b : List Char)
    (ha : ∀ c ∈ a, p c = true) : (a ++ b).takeWhile p = a ++ b.takeWhile p := by
  induction a with
  | nil => simp
  | cons d a ih =>
    rw [List.cons_append, List.takeWhile_cons, if_pos (ha d (by simp)),
        ih (fun c hc => ha c (by simp [hc])), List.cons_append]

lemma matches_takeWhile {p : Char → Bool} (h1 : p '第' = true) (h2 : p '条' = true)
    (hnum : ∀ c, marker_num c = true → p c = true) (l : List Char) :
    matches_here (l.takeWhile p) = matches_here l := by
  cases hm : matches_here l with
  | true =>
    obtain ⟨ds, tail, hdec, hne, hall⟩ := matches_here_iff.mp hm
    rw [hdec]
    have htw : (('第' : Char) :: (ds ++ '条' :: tail)).takeWhile p =
        '第' :: (ds ++ '条' :: tail.takeWhile p) := by
      rw [List.takeWhile_cons, if_pos h1, takeWhile_append_all _ (fun c hc => hnum c (hall c hc)),
          List.takeWhile_cons, if_pos h2]
    rw [htw]
    exact matches_here_iff.mpr ⟨ds, tail.takeWhile p, rfl, hne, hall⟩
  | false =>
    cases hmt : matches_here (List.takeWhile p l) with
    | false => rfl
    | true =>
      obtain ⟨ds, tail, hdec, hne, hall⟩ := matches_here_iff.mp hmt
      have hfull : l = '第' :: (ds ++ '条' :: (tail ++ l.dropWhile p)) := by
        conv_lhs => rw [← List.takeWhile_append_dropWhile p l]
        rw [hdec]
        simp [List.append_assoc]
      have hcontra := matches_here_iff.mpr ⟨ds, tail ++ l.dropWhile p, hfull, hne, hall⟩
      rw [hm] at hcontra
      exact Bool.noConfusion hcontra

lemma marker_num_bne_sp {c : Char} (hc : marker_num c = true) : (c != ' ') = true := by
  have hw := marker_num_not_ws hc
  have hne : ¬ c = ' ' := by
    intro he
    rw [he] at hw
    exact absurd hw (by decide)
  simpa using hne

lemma marker_num_bne_nl {c : Char} (hc : marker_num c = true) : (c != '\n') = true := by
  have hw := marker_num_not_ws hc
  have hne : ¬ c = '\n' := by
    intro he
    rw [he] at hw
    exact absurd hw (by decide)
  simpa using hne

lemma take_not_sp_coll_sp (l : List Char) :
    (coll_sp l).takeWhile (fun c => c != ' ') = l.takeWhile (fun c => c != ' ') := by
  induction l using coll_sp.induct with
  | case1 => rfl
  | case2 d => rfl
  | case3 c1 c2 rest hif ih =>
    obtain ⟨h1, h2⟩ := hif
    subst h1
    subst h2
    rw [coll_sp, if_pos ⟨rfl, rfl⟩, ih]
    simp [List.takeWhile_cons]
  | case4 c1 c2 rest hif ih =>
    rw [coll_sp, if_neg hif]
    by_cases hc1 : c1 = ' '
    · subst hc1
      simp [List.takeWhile_cons]
    · have hb : (c1 != ' ') = true := by simpa using hc1
      rw [List.takeWhile_cons, List.takeWhile_cons, if_pos hb, if_pos hb, ih]

lemma take_not_nl_coll_nl (l : List Char) :
    (coll_nl l).takeWhile (fun c => c != '\n') = l.takeWhile (fun c => c != '\n') := by
  induction l using coll_nl.induct with
  | case1 => rfl
  | case2 d => rfl
  | case3 c1 c2 rest hif ih =>
    obtain ⟨h1, h2⟩ := hif
    subst h1
    subst h2
    rw [coll_nl, if_pos ⟨rfl, rfl⟩, ih]
    simp [List.takeWhile_cons]
  | case4 c1 c2 rest hif ih =>
    rw [coll_nl, if_neg hif]
    by_cases hc1 : c1 = '\n'
    · subst hc1
      simp [List.takeWhile_cons]
    · have hb : (c1 != '\n') = true := by simpa using hc1
      rw [List.takeWhile_cons, List.takeWhile_cons, if_pos hb, if_pos hb, ih]

lemma matches_coll_sp (l : List Char) : matches_here (coll_sp l) = matches_here l := by
  rw [← matches_takeWhile (p := fun c => c != ' ') (by decide) (by decide)
        (fun c hc => marker_num_bne_sp hc) (coll_sp l),
      take_not_sp_coll_sp,
      matches_takeWhile (by decide) (by decide) (fun c hc => marker_num_bne_sp hc) l]

lemma matches_coll_nl (l : List Char) : matches_here (coll_nl l) = matches_here l := by
  rw [← matches_takeWhile (p := fun c => c != '\n') (by decide) (by decide)
        (fun c hc => marker_num_bne_nl hc) (coll_nl l),
      take_not_nl_coll_nl,
      matches_takeWhile (by decide) (by decide) (fun c hc => marker_num_bne_nl hc) l]

lemma has_marker_cons {c : Char} {l : List Char} (h : has_marker l = true) :
    has_marker (c :: l) = true := by
  rw [has_marker, h, Bool.or_true]

lemma has_marker_coll_sp {l : List Char} (h : has_marker (coll_sp l) = true) :
    has_marker l = true := by
  induction l using coll_sp.induct with
  | case1 => exact absurd h (by simp [coll_sp, has_marker])
  | case2 d => exact h
  | case3 c1 c2 rest hif ih =>
    rw [coll_sp, if_pos hif] at h
    exact has_marker_cons (ih h)
  | case4 c1 c2 rest hif ih =>
    rw [coll_sp, if_neg hif] at h
    rw [has_marker] at h
    rcases (Bool.or_eq_true _ _).mp h with hl | hr
    · have : matches_here (coll_sp (c1 :: c2 :: rest)) = true := by
        rw [coll_sp, if_neg hif]
        exact hl
      rw [matches_coll_sp] at this
      rw [has_marker, this, Bool.true_or]
    · exact has_marker_cons (ih hr)

lemma has_marker_coll_nl {l : List Char} (h : has_marker (coll_nl l) = true) :
    has_marker l = true := by
  induction l using coll_nl.induct with
  | case1 => exact absurd h (by simp [coll_nl, has_marker])
  | case2 d => exact h
  | case3 c1 c2 rest hif ih =>
    rw [coll_nl, if_pos hif] at h
    exact has_marker_cons (ih h)
  | case4 c1 c2 rest hif ih =>
    rw [coll_nl, if_neg hif] at h
    rw [has_marker] at h
    rcases (Bool.or_eq_true _ _).mp h with hl | hr
    · have : matches_here (coll_nl (c1 :: c2 :: rest)) = true := by
        rw [coll_nl, if_neg hif]
        exact hl
      rw [matches_coll_nl] at this
      rw [has_marker, this, Bool.true_or]
    · exact has_marker_cons (ih hr)

lemma marker_num_not_cr {c : Char} (hc : marker_num c = true) : ¬ c = '\r' := by
  intro he
  rw [he] at hc
  exact absurd hc (by decide)

lemma marker_num_bne_crnl {c : Char} (hc : marker_num c = true) :
    ((c != '\r') && (c != '\n')) = true := by
  have h1 : ¬ c = '\r' := marker_num_not_cr hc
  have h2 : ¬ c = '\n' := by
    intro he
    rw [he] at hc
    exact absurd hc (by decide)
  simp [h1, h2]

lemma take_crnl_repl_crlf (l : List Char) :
    (repl_crlf l).takeWhile (fun c => (c != '\r') && (c != '\n')) =
      l.takeWhile (fun c => (c != '\r') && (c != '\n')) := by
  induction l using repl_crlf.induct with
  | case1 rest ih => simp [repl_crlf, List.takeWhile_cons]
  | case2 c rest hne ih =>
    have heq : repl_crlf (c :: rest) = c :: repl_crlf rest := by
      rw [repl_crlf]
      exact hne
    rw [heq, List.takeWhile_cons, List.takeWhile_cons]
    by_cases hb : ((c != '\r') && (c != '\n')) = true
    · rw [if_pos hb, if_pos hb, ih]
    · rw [if_neg hb, if_neg hb]
  | case3 => rfl

lemma matches_repl_crlf (l : List Char) : matches_here (repl_crlf l) = matches_here l := by
  rw [← matches_takeWhile (p := fun c => (c != '\r') && (c != '\n')) (by decide) (by decide)
        (fun c hc => marker_num_bne_crnl hc) (repl_crlf l),
      take_crnl_repl_crlf,
      matches_takeWhile (by decide) (by decide) (fun c hc => marker_num_bne_crnl hc) l]

lemma matches_head_di {c : Char} {x : List Char} (h : matches_here (c :: x) = true) :
    c = '第' := by
  obtain ⟨ds, tail, hdec, -, -⟩ := matches_here_iff.mp h
  exact (List.cons.inj hdec).1

lemma has_marker_repl_crlf {l : List Char} (h : has_marker (repl_crlf l) = true) :
    has_marker l = true := by
  induction l using repl_crlf.induct with
  | case1 rest ih =>
    rw [show repl_crlf ('\r' :: '\n' :: rest) = '\n' :: repl_crlf rest from rfl,
        has_marker] at h
    rcases (Bool.or_eq_true _ _).mp h with hl | hr
    · exact absurd (matches_head_di hl) (by decide)
    · exact has_marker_cons (has_marker_cons (ih hr))
  | case2 c rest hne ih =>
    have heq : repl_crlf (c :: rest) = c :: repl_crlf rest := by
      rw [repl_crlf]
      exact hne
    rw [heq, has_marker] at h
    rcases (Bool.or_eq_true _ _).mp h with hl | hr
    · have hm : matches_here (repl_crlf (c :: rest)) = true := by
        rw [heq]
        exact hl
      rw [matches_repl_crlf] at hm
      rw [has_marker, hm, Bool.true_or]
    · exact has_marker_cons (ih hr)
  | case3 => exact absurd h (by simp [repl_crlf, has_marker])

lemma map_cr_pull :
    ∀ (ds : List Char) (u tail : List Char),
      u.map (fun c => if c = '\r' then '\n' else c) = ds ++ '条' :: tail →
      (∀ c ∈ ds, marker_num c = true) →
      ∃ ds2 tail2, u = ds2 ++ '条' :: tail2 ∧ ds2.length = ds.length ∧
        (∀ c ∈ ds2, marker_num c = true) := by
  intro ds
  induction ds with
  | nil =>
    intro u tail hmap _
    match u with
    | [] => exact absurd hmap (by simp)
    | c0 :: u2 =>
      rw [List.map_cons] at hmap
      obtain ⟨h1, h2⟩ := List.cons.inj hmap
      have hc0 : c0 = '条' := by
        by_cases hr : c0 = '\r'
        · rw [if_pos hr] at h1
          exact absurd h1 (by decide)
        · rwa [if_neg hr] at h1
      exact ⟨[], u2, by rw [hc0]; rfl, rfl, by simp⟩
  | cons d ds ih =>
    intro u tail hmap hall
    match u with
    | [] => exact absurd hmap (by simp)
    | c0 :: u2 =>
      rw [List.map_cons] at hmap
      obtain ⟨h1, h2⟩ := List.cons.inj hmap
      have hd : marker_num d = true := hall d (by simp)
      have hc0 : c0 = d := by
        by_cases hr : c0 = '\r'
        · rw [if_pos hr] at h1
          rw [← h1] at hd
          exact absurd hd (by decide)
        · rwa [if_neg hr] at h1
      obtain ⟨ds2, tail2, hu2, hlen, hall2⟩ := ih u2 tail h2 (fun c hc => hall c (by simp [hc]))
      refine ⟨c0 :: ds2, tail2, by rw [hu2]; rfl, by simp [hlen], ?_⟩
      intro c hc
      rcases List.mem_cons.mp hc with rfl | hc2
      · rw [hc0]; exact hd
      · exact hall2 c hc2

lemma matches_map_cr {u : List Char}
    (h : matches_here (u.map (fun c => if c = '\r' then '\n' else c)) = true) :
    matches_here u = true := by
  obtain ⟨ds, tail, hdec, hne, hall⟩ := matches_here_iff.mp h
  match u with
  | [] => exact absurd hdec (by simp)
  | c0 :: u2 =>
    rw [List.map_cons] at hdec
    obtain ⟨h1, h2⟩ := List.cons.inj hdec
    have hc0 : c0 = '第' := by
      by_cases hr : c0 = '\r'
      · rw [if_pos hr] at h1
        exact absurd h1 (by decide)
      · rwa [if_neg hr] at h1
    obtain ⟨ds2, tail2, hu2, hlen, hall2⟩ := map_cr_pull ds u2 tail h2 hall
    have hne2 : ds2 ≠ [] := by
      intro he
      rw [he] at hlen
      match ds, hne with
      | [], hne => exact hne rfl
      | d :: ds, _ => exact absurd hlen.symm (by simp)
    exact matches_here_iff.mpr ⟨ds2, tail2, by rw [hc0, hu2], hne2, hall2⟩

lemma has_marker_map_cr {l : List Char}
    (h : has_marker (l.map (fun c => if c = '\r' then '\n' else c)) = true) :
    has_marker l = true := by
  induction l with
  | nil => exact absurd h (by simp [has_marker])
  | cons c rest ih =>
    rw [List.map_cons, has_marker] at h
    rcases (Bool.or_eq_true _ _).mp h with hl | hr
    · have hm : matches_here ((c :: rest).map (fun c => if c = '\r' then '\n' else c)) = true := by
        rw [List.map_cons]
        exact hl
      rw [has_marker, matches_map_cr hm, Bool.true_or]
    · exact has_marker_cons (ih hr)

lemma has_marker_repl_cr {l : List Char} (h : has_marker (repl_cr l) = true) :
    has_marker l = true :=
  has_marker_repl_crlf (has_marker_map_cr h)

lemma has_marker_append_inl {a : List Char} (b : List Char) (h : has_marker a = true) :
    has_marker (a ++ b) = true := by
  induction a with
  | nil => exact absurd h (by simp [has_marker])
  | cons c rest ih =>
    rw [has_marker] at h
    rcases (Bool.or_eq_true _ _).mp h with hl | hr
    · rw [List.cons_append, has_marker]
      have hm := matches_here_append (b := b) hl
      rw [List.cons_append] at hm
      rw [hm, Bool.true_or]
    · rw [List.cons_append]
      exact has_marker_cons (ih hr)

lemma has_marker_append_inr (a : List Char) {b : List Char} (h : has_marker b = true) :
    has_marker (a ++ b) = true := by
  induction a with
  | nil => exact h
  | cons c rest ih =>
    rw [List.cons_append]
    exact has_marker_cons ih

lemma has_marker_strip {l : List Char} (h : has_marker (strip_chars l) = true) :
    has_marker l = true := by
  obtain ⟨a, b, hab⟩ := strip_decomp l
  rw [hab]
  exact has_marker_append_inl b (has_marker_append_inr a h)

/-- C5 amended: the text normalizer is idempotent on every input containing
no article-marker occurrence.  (On marker-bearing input it is not: each pass
prepends one more newline to every non-initial marker, because the
newline-run collapse runs before the marker-newline insertion.) -/
theorem normalization_idempotent_marker_free (s : String)
    (h : has_marker s.data = false) :
    clean_pdf_text (clean_pdf_text s) = clean_pdf_text s := by
  have hx : has_marker (coll_nl (coll_sp (repl_cr s.data))) = false := by
    cases hy : has_marker (coll_nl (coll_sp (repl_cr s.data))) with
    | false => rfl
    | true =>
      have := has_marker_repl_cr (has_marker_coll_sp (has_marker_coll_nl hy))
      rw [this] at h
      exact Bool.noConfusion h
  have hclean : (clean_pdf_text s).data = strip_chars (coll_nl (coll_sp (repl_cr s.data))) := by
    rw [clean_pdf_text, ins_nl_id hx]
  have hnoCR : '\r' ∉ (clean_pdf_text s).data := by
    rw [hclean]
    intro hc
    exact no_cr_repl_cr _ (mem_coll_sp (mem_coll_nl (mem_strip hc)))
  have hsp : List.Chain' no_sp_pair (clean_pdf_text s).data := by
    rw [hclean]
    exact chain_strip (chain_coll_nl_any (coll_sp_chain _))
  have hnl : List.Chain' no_nl_pair (clean_pdf_text s).data := by
    rw [hclean]
    exact chain_strip (coll_nl_chain _)
  have hmk : has_marker (clean_pdf_text s).data = false := by
    rw [hclean]
    cases hy : has_marker (strip_chars (coll_nl (coll_sp (repl_cr s.data)))) with
    | false => rfl
    | true =>
      have := has_marker_strip hy
      rw [this] at hx
      exact Bool.noConfusion hx
  conv_lhs => rw [clean_pdf_text]
  rw [repl_cr_id hnoCR, coll_sp_id hsp, coll_nl_id hnl, ins_nl_id hmk, hclean, strip_idem,
      ← hclean, string_mk_data]

/-- C5 witness: a marker-free text with CRLF endings and doubled spaces is a
fixed point of the normalizer after one pass. -/
theorem normalization_idempotent_marker_free_witness :
    clean_pdf_text (clean_pdf_text "序言  文本\r\n正文") = clean_pdf_text "序言  文本\r\n正文" :=
  normalization_idempotent_marker_free _ (by decide)

lemma split_lines_cons_ne {c : Char} (hc : ¬ c = '\n') (rest : List Char) :
    split_lines (c :: rest) =
      match split_lines rest with
      | [] => [[c]]
      | l :: ls => (c :: l) :: ls := by
  rw [split_lines.eq_3]
  exact fun h => hc h

lemma split_lines_ne_nil (l : List Char) : split_lines l ≠ [] := by
  match l with
  | [] => simp [split_lines]
  | '\n' :: rest => simp [split_lines]
  | c :: rest =>
    by_cases hc : c = '\n'
    · subst hc
      simp [split_lines]
    · rw [split_lines_cons_ne hc]
      match split_lines rest with
      | [] => simp
      | q :: qs => simp

lemma join_lines_cons (q : List Char) (qs : List (List Char)) :
    join_lines (q :: qs) =
      q ++ (match qs with | [] => [] | _ :: _ => '\n' :: join_lines qs) := by
  match qs with
  | [] => simp [join_lines]
  | r :: rs => rfl

lemma join_split (l : List Char) : join_lines (split_lines l) = l := by
  induction l with
  | nil => rfl
  | cons c rest ih =>
    by_cases hc : c = '\n'
    · subst hc
      rw [show split_lines ('\n' :: rest) = [] :: split_lines rest from rfl]
      match hsp : split_lines rest with
      | [] => exact absurd hsp (split_lines_ne_nil rest)
      | q :: qs =>
        rw [hsp] at ih
        rw [join_lines_cons]
        simp only [List.nil_append]
        rw [ih]
    · rw [split_lines_cons_ne hc]
      match hsp : split_lines rest with
      | [] => exact absurd hsp (split_lines_ne_nil rest)
      | q :: qs =>
        rw [hsp] at ih
        simp only []
        rw [join_lines_cons]
        rw [join_lines_cons] at ih
        match qs with
        | [] => simp only [List.cons_append]; rw [← ih]
        | r :: rs => simp only [List.cons_append]; rw [← ih]

lemma prefix_of_head {p : Char → Bool} :
    ∀ (a : List Char) {t r b : List Char},
      a ++ t = r ++ b → (∀ x ∈ a, p x = false) → (∀ x ∈ b.head?, p x = true) →
      ∃ c, r = a ++ c := by
  intro a
  induction a with
  | nil => intro t r b _ _ _; exact ⟨r, rfl⟩
  | cons x a ih =>
    intro t r b h ha hb
    match r with
    | [] =>
      rw [List.nil_append] at h
      have hx : p x = false := ha x (by simp)
      have hx2 : p x = true := hb x (by rw [← h]; simp)
      rw [hx] at hx2
      exact Bool.noConfusion hx2
    | y :: r2 =>
      rw [List.cons_append, List.cons_append] at h
      obtain ⟨h1, h2⟩ := List.cons.inj h
      obtain ⟨c, hc⟩ := ih h2 (fun z hz => ha z (by simp [hz])) hb
      exact ⟨c, by rw [hc, ← h1, List.cons_append]⟩

/-- A marker cannot span a newline: at the start of a line, matching against
the rest of the text is the same as matching against the line alone. -/
lemma matches_append_nl (xs ys : List Char) :
    matches_here (xs ++ '\n' :: ys) = matches_here xs := by
  cases hm : matches_here xs with
  | true => exact matches_here_append hm
  | false =>
    cases hm2 : matches_here (xs ++ '\n' :: ys) with
    | false => rfl
    | true =>
      obtain ⟨ds, tail, hdec, hne, hall⟩ := matches_here_iff.mp hm2
      have hrw : ('第' :: (ds ++ ['条'])) ++ tail = xs ++ '\n' :: ys := by
        rw [hdec]
        simp
      have hnonl : ∀ x ∈ ('第' :: (ds ++ ['条'])), (x == '\n') = false := by
        intro x hx
        rcases List.mem_cons.mp hx with rfl | hx2
        · decide
        · rcases List.mem_append.mp hx2 with hd | hcc
          · have hb := marker_num_bne_nl (hall x hd)
            simpa [bne] using hb
          · have hx3 : x = '条' := by simpa using hcc
            subst hx3
            decide
      have hhead : ∀ x ∈ (('\n' :: ys).head?), (x == '\n') = true := by
        intro x hx
        have hx3 : x = '\n' := by simpa using hx.symm
        subst hx3
        decide
      obtain ⟨c, hc⟩ := prefix_of_head (p := fun z => z == '\n') _ hrw hnonl hhead
      have hxs : matches_here xs = true := by
        apply matches_here_iff.mpr
        refine ⟨ds, c, ?_, hne, hall⟩
        rw [hc]
        simp
      rw [hxs] at hm
      exact Bool.noConfusion hm

lemma matches_nl_head (x : List Char) : matches_here ('\n' :: x) = false := by
  cases hx : matches_here ('\n' :: x) with
  | false => rfl
  | true => exact absurd (matches_head_di hx) (by decide)

lemma has_marker_of_matches_drop :
    ∀ (i : Nat) (l : List Char), matches_here (l.drop i) = true → has_marker l = true := by
  intro i
  induction i with
  | zero =>
    intro l h
    rw [List.drop_zero] at h
    match l with
    | [] =>
      rw [matches_here_nil] at h
      exact Bool.noConfusion h
    | c :: r => rw [has_marker, h, Bool.true_or]
  | succ i ih =>
    intro l h
    match l with
    | [] =>
      rw [List.drop_nil, matches_here_nil] at h
      exact Bool.noConfusion h
    | c :: r =>
      rw [show (c :: r).drop (i + 1) = r.drop i from rfl] at h
      exact has_marker_cons (ih r h)

lemma rsplit_go_no_match :
    ∀ (chunk : List Char) {rest acc : List Char},
      (∀ i, i < chunk.length → matches_here (chunk.drop i ++ rest) = false) →
      rsplit_go acc (chunk ++ rest) = rsplit_go (chunk.reverse ++ acc) rest := by
  intro chunk
  induction chunk with
  | nil => intro rest acc _; simp
  | cons c ch ih =>
    intro rest acc h
    have h0 : matches_here (c :: (ch ++ rest)) = false := by
      have h00 := h 0 (by simp)
      simpa using h00
    rw [List.cons_append, rsplit_go, if_neg (by rw [h0]; exact fun hx => Bool.noConfusion hx)]
    rw [ih (fun i hi => by
      have hh := h (i + 1) (by simpa using Nat.succ_lt_succ hi)
      simpa using hh)]
    simp

lemma rsplit_join :
    ∀ (L : List (List Char)) (p : List Char),
      (∀ ℓ ∈ L, has_marker (ℓ.drop 1) = false) →
      rsplit_go p (join_lines L) = rline_go p L := by
  intro L
  induction L with
  | nil => intro p _; rfl
  | cons ℓ rest ih =>
    intro p h1
    have hℓ1 : has_marker (ℓ.drop 1) = false := h1 ℓ (by simp)
    have hdropf : ∀ i, 1 ≤ i → matches_here (ℓ.drop i) = false := by
      intro i hi
      cases hx : matches_here (ℓ.drop i) with
      | false => rfl
      | true =>
        have hx2 : matches_here ((ℓ.drop 1).drop (i - 1)) = true := by
          rw [List.drop_drop, show 1 + (i - 1) = i from by omega]
          exact hx
        have hx3 := has_marker_of_matches_drop (i - 1) (ℓ.drop 1) hx2
        rw [hx3] at hℓ1
        exact Bool.noConfusion hℓ1
    match rest with
    | [] =>
      have hjoin : join_lines [ℓ] = ℓ := by simp [join_lines]
      rw [hjoin]
      by_cases hm : matches_here ℓ = true
      · match ℓ, hm, hdropf with
        | c :: ℓ2, hm, hdropf =>
          rw [rsplit_go, if_pos hm]
          have hA := @rsplit_go_no_match ℓ2 [] [c] (fun i hi => by
            have hd := hdropf (i + 1) (by omega)
            simpa using hd)
          rw [List.append_nil] at hA
          rw [hA, rline_go, if_pos hm]
          simp [rsplit_go, rline_go]
      · have hmf : matches_here ℓ = false := by
          cases hx : matches_here ℓ with
          | false => rfl
          | true => exact absurd hx hm
        have hA := @rsplit_go_no_match ℓ [] p (fun i hi => by
          match i, hi with
          | 0, hi => simpa using hmf
          | j + 1, hi => simpa using hdropf (j + 1) (by omega))
        rw [List.append_nil] at hA
        rw [hA, rline_go, if_neg (by rw [hmf]; exact fun hx => Bool.noConfusion hx)]
        simp [rsplit_go, rline_go]
    | r :: rs =>
      have hjoin : join_lines (ℓ :: r :: rs) = ℓ ++ '\n' :: join_lines (r :: rs) := rfl
      rw [hjoin]
      have hrest1 : ∀ x ∈ (r :: rs), has_marker (x.drop 1) = false :=
        fun x hx => h1 x (by simp [hx])
      by_cases hm : matches_here ℓ = true
      · match ℓ, hm, hdropf with
        | c :: ℓ2, hm, hdropf =>
          have hcond : matches_here (c :: (ℓ2 ++ '\n' :: join_lines (r :: rs))) = true := by
            rw [← List.cons_append, matches_append_nl]
            exact hm
          have hstep1 : rsplit_go p ((c :: ℓ2) ++ '\n' :: join_lines (r :: rs)) =
              p.reverse :: rsplit_go [c] (ℓ2 ++ '\n' :: join_lines (r :: rs)) := by
            rw [List.cons_append, rsplit_go, if_pos hcond]
          have hA := @rsplit_go_no_match ℓ2 ('\n' :: join_lines (r :: rs)) [c]
            (fun i hi => by
              rw [matches_append_nl]
              simpa using hdropf (i + 1) (by omega))
          have hstep2 : rsplit_go (ℓ2.reverse ++ [c]) ('\n' :: join_lines (r :: rs)) =
              rsplit_go ('\n' :: (ℓ2.reverse ++ [c])) (join_lines (r :: rs)) := by
            rw [rsplit_go, if_neg (by rw [matches_nl_head]; exact fun hx => Bool.noConfusion hx)]
          have hrhs : rline_go p ((c :: ℓ2) :: r :: rs) =
              p.reverse :: rline_go ('\n' :: (ℓ2.reverse ++ [c])) (r :: rs) := by
            rw [rline_go, if_pos hm]
            simp
          rw [hstep1, hA, hstep2, ih _ hrest1, hrhs]
      · have hmf : matches_here ℓ = false := by
          cases hx : matches_here ℓ with
          | false => rfl
          | true => exact absurd hx hm
        have hA := @rsplit_go_no_match ℓ ('\n' :: join_lines (r :: rs)) p
          (fun i hi => by
            rw [matches_append_nl]
            match i, hi with
            | 0, hi => simpa using hmf
            | j + 1, hi => simpa using hdropf (j + 1) (by omega))
        have hstep2 : rsplit_go (ℓ.reverse ++ p) ('\n' :: join_lines (r :: rs)) =
            rsplit_go ('\n' :: (ℓ.reverse ++ p)) (join_lines (r :: rs)) := by
          rw [rsplit_go, if_neg (by rw [matches_nl_head]; exact fun hx => Bool.noConfusion hx)]
        have hrhs : rline_go p (ℓ :: r :: rs) = rline_go ('\n' :: (ℓ.reverse ++ p)) (r :: rs) := by
          rw [rline_go, if_neg (by rw [hmf]; exact fun hx => Bool.noConfusion hx)]
          simp
        rw [hA, hstep2, ih _ hrest1, hrhs]

lemma ltrim_decomp_ws (l : List Char) :
    l = l.takeWhile py_ws ++ ltrim l ∧ ∀ c ∈ l.takeWhile py_ws, py_ws c = true :=
  ⟨(List.takeWhile_append_dropWhile py_ws l).symm, fun _ hc => List.mem_takeWhile_imp hc⟩

lemma rtrim_decomp_ws (l : List Char) :
    l = rtrim l ++ (l.reverse.takeWhile py_ws).reverse ∧
      ∀ c ∈ (l.reverse.takeWhile py_ws).reverse, py_ws c = true := by
  constructor
  · rw [rtrim, ← List.reverse_append, List.takeWhile_append_dropWhile, List.reverse_reverse]
  · intro c hc
    exact List.mem_takeWhile_imp (List.mem_reverse.mp hc)

lemma strip_eq_nil_iff (l : List Char) :
    strip_chars l = [] ↔ ∀ c ∈ l, py_ws c = true := by
  constructor
  · intro h c hc
    obtain ⟨h1, ha⟩ := ltrim_decomp_ws l
    obtain ⟨h2, hb⟩ := rtrim_decomp_ws (ltrim l)
    rw [strip_chars] at h
    rw [h] at h2
    rw [h1, h2] at hc
    rcases List.mem_append.mp hc with hc1 | hc2
    · exact ha c hc1
    · exact hb c (by simpa using hc2)
  · intro h
    have h1 : ltrim l = [] := by
      rw [ltrim, List.dropWhile_eq_nil_iff]
      intro x hx
      rw [h x hx]
    rw [strip_chars, h1]
    rfl

lemma split_lines_no_nl (l : List Char) : ∀ ℓ ∈ split_lines l, '\n' ∉ ℓ := by
  induction l with
  | nil =>
    intro ℓ hℓ
    have : ℓ = [] := by simpa [split_lines] using hℓ
    simp [this]
  | cons c rest ih =>
    intro ℓ hℓ
    by_cases hc : c = '\n'
    · subst hc
      rw [show split_lines ('\n' :: rest) = [] :: split_lines rest from rfl] at hℓ
      rcases List.mem_cons.mp hℓ with rfl | h2
      · simp
      · exact ih ℓ h2
    · rw [split_lines_cons_ne hc] at hℓ
      match hsp : split_lines rest with
      | [] => exact absurd hsp (split_lines_ne_nil rest)
      | q :: qs =>
        rw [hsp] at hℓ
        simp only [] at hℓ
        rcases List.mem_cons.mp hℓ with rfl | h2
        · intro hmem
          rcases List.mem_cons.mp hmem with he | h3
          · exact hc he.symm
          · exact ih q (by rw [hsp]; simp) h3
        · exact ih ℓ (by rw [hsp]; simp [h2])

lemma mem_of_mem_split_lines (l : List Char) :
    ∀ ℓ ∈ split_lines l, ∀ c ∈ ℓ, c ∈ l := by
  induction l with
  | nil =>
    intro ℓ hℓ c hc
    have : ℓ = [] := by simpa [split_lines] using hℓ
    rw [this] at hc
    exact absurd hc (by simp)
  | cons x rest ih =>
    intro ℓ hℓ c hc
    by_cases hx : x = '\n'
    · subst hx
      rw [show split_lines ('\n' :: rest) = [] :: split_lines rest from rfl] at hℓ
      rcases List.mem_cons.mp hℓ with rfl | h2
      · exact absurd hc (by simp)
      · exact List.mem_cons_of_mem _ (ih ℓ h2 c hc)
    · rw [split_lines_cons_ne hx] at hℓ
      match hsp : split_lines rest with
      | [] => exact absurd hsp (split_lines_ne_nil rest)
      | q :: qs =>
        rw [hsp] at hℓ
        simp only [] at hℓ
        rcases List.mem_cons.mp hℓ with rfl | h2
        · rcases List.mem_cons.mp hc with rfl | h3
          · simp
          · exact List.mem_cons_of_mem _ (ih q (by rw [hsp]; simp) c h3)
        · exact List.mem_cons_of_mem _ (ih ℓ (by rw [hsp]; simp [h2]) c hc)

lemma mem_split_lines_of_mem (l : List Char) :
    ∀ c ∈ l, c = '\n' ∨ ∃ ℓ ∈ split_lines l, c ∈ ℓ := by
  induction l with
  | nil => intro c hc; exact absurd hc (by simp)
  | cons x rest ih =>
    intro c hc
    by_cases hx : x = '\n'
    · subst hx
      rcases List.mem_cons.mp hc with rfl | h2
      · exact Or.inl rfl
      · rcases ih c h2 with h3 | ⟨ℓ, hℓ, hcl⟩
        · exact Or.inl h3
        · refine Or.inr ⟨ℓ, ?_, hcl⟩
          rw [show split_lines ('\n' :: rest) = [] :: split_lines rest from rfl]
          exact List.mem_cons_of_mem _ hℓ
    · match hsp : split_lines rest with
      | [] => exact absurd hsp (split_lines_ne_nil rest)
      | q :: qs =>
        have hrw : split_lines (x :: rest) = (x :: q) :: qs := by
          rw [split_lines_cons_ne hx, hsp]
        rcases List.mem_cons.mp hc with rfl | h2
        · exact Or.inr ⟨c :: q, by rw [hrw]; simp, by simp⟩
        · rcases ih c h2 with h3 | ⟨ℓ, hℓ, hcl⟩
          · exact Or.inl h3
          · rw [hsp] at hℓ
            rcases List.mem_cons.mp hℓ with rfl | h4
            · exact Or.inr ⟨x :: ℓ, by rw [hrw]; simp, List.mem_cons_of_mem _ hcl⟩
            · exact Or.inr ⟨ℓ, by rw [hrw]; simp [h4], hcl⟩

lemma canon_chars_eq_nil_iff (x : List Char) :
    canon_chars x = [] ↔ strip_chars x = [] := by
  rw [canon_chars, List.filter_eq_nil_iff, strip_eq_nil_iff]
  constructor
  · intro h c hc
    rcases mem_split_lines_of_mem x c hc with rfl | ⟨ℓ, hℓ, hcl⟩
    · decide
    · have h2 := h (strip_chars ℓ) (List.mem_map_of_mem strip_chars hℓ)
      have h3 : strip_chars ℓ = [] := by simpa using h2
      have h4 := (strip_eq_nil_iff ℓ).mp h3
      exact h4 c hcl
  · intro h a ha
    obtain ⟨ℓ, hℓ, rfl⟩ := List.mem_map.mp ha
    have : strip_chars ℓ = [] :=
      (strip_eq_nil_iff ℓ).mpr (fun c hc => h c (mem_of_mem_split_lines x ℓ hℓ c hc))
    simp [this]

lemma split_lines_no_nl_id {q : List Char} (h : '\n' ∉ q) : split_lines q = [q] := by
  induction q with
  | nil => rfl
  | cons c rest ih =>
    have hc : ¬ c = '\n' := fun he => h (he ▸ List.mem_cons_self c rest)
    rw [split_lines_cons_ne hc, ih (fun hx => h (List.mem_cons_of_mem c hx))]

lemma split_lines_append_line {q : List Char} (y : List Char) (h : '\n' ∉ q) :
    split_lines (q ++ '\n' :: y) = q :: split_lines y := by
  induction q with
  | nil => rfl
  | cons c q2 ih =>
    have hc : ¬ c = '\n' := fun he => h (he ▸ List.mem_cons_self c q2)
    rw [List.cons_append, split_lines_cons_ne hc, ih (fun hx => h (List.mem_cons_of_mem c hx))]

lemma canon_chars_line {ℓ : List Char} (h : '\n' ∉ ℓ) : canon_chars ℓ = canon_line ℓ := by
  rw [canon_chars, split_lines_no_nl_id h, canon_line]
  by_cases hs : strip_chars ℓ = []
  · simp [hs]
  · simp [hs]

lemma canon_join_nl {P : List (List Char)} (hP : ∀ q ∈ P, '\n' ∉ q) (x : List Char) :
    canon_chars (join_nl P ++ x) = canon_list P ++ canon_chars x := by
  induction P with
  | nil => rfl
  | cons q P2 ih =>
    have hq : '\n' ∉ q := hP q (by simp)
    have hstep : join_nl (q :: P2) ++ x = q ++ '\n' :: (join_nl P2 ++ x) := by
      rw [join_nl]
      simp
    rw [hstep, canon_chars, split_lines_append_line _ hq, List.map_cons, List.filter_cons]
    rw [show ((split_lines (join_nl P2 ++ x)).map strip_chars).filter (fun a => a ≠ []) =
        canon_chars (join_nl P2 ++ x) from rfl]
    rw [ih (fun z hz => hP z (by simp [hz]))]
    by_cases hs : strip_chars q = []
    · simp [hs, canon_list, List.filter_cons]
    · simp [hs, canon_list, List.filter_cons]

lemma canon_chars_join_nl {P : List (List Char)} (hP : ∀ q ∈ P, '\n' ∉ q) :
    canon_chars (join_nl P) = canon_list P := by
  have h := canon_join_nl hP []
  rw [List.append_nil] at h
  have h2 : canon_chars ([] : List Char) = [] := rfl
  rw [h, h2, List.append_nil]

lemma canon_list_singleton (ℓ : List Char) : canon_list [ℓ] = canon_line ℓ := by
  rw [canon_list, canon_line]
  by_cases hs : strip_chars ℓ = []
  · simp [hs]
  · simp [hs]

lemma canon_list_append_one (P : List (List Char)) (ℓ : List Char) :
    canon_list (P ++ [ℓ]) = canon_list P ++ canon_line ℓ := by
  rw [canon_list, List.map_append, List.filter_append]
  rw [show (([ℓ].map strip_chars).filter (fun x => x ≠ [])) = canon_list [ℓ] from rfl,
    canon_list_singleton]
  rfl

lemma join_nl_append_one (P : List (List Char)) (ℓ : List Char) :
    join_nl (P ++ [ℓ]) = join_nl P ++ (ℓ ++ ['\n']) := by
  induction P with
  | nil => rfl
  | cons q P2 ih =>
    rw [List.cons_append, join_nl, ih, join_nl]
    simp

lemma matches_strip_ne_chars {ℓ : List Char} (hm : matches_here ℓ = true) :
    strip_chars ℓ ≠ [] := by
  intro hnil
  obtain ⟨ds, tail, hdec, -, -⟩ := matches_here_iff.mp hm
  have hall := (strip_eq_nil_iff ℓ).mp hnil
  have : py_ws '第' = true := hall '第' (by rw [hdec]; simp)
  exact absurd this (by decide)

lemma rline_canon (L : List (List Char)) :
    ∀ (P : List (List Char)),
      (∀ ℓ ∈ L, '\n' ∉ ℓ) → (∀ q ∈ P, '\n' ∉ q) →
      ((rline_go (join_nl P).reverse L).map canon_chars).filter (fun x => x ≠ []) =
        segs_canon (canon_list P) L := by
  induction L with
  | nil =>
    intro P _ hP
    rw [rline_go, List.reverse_reverse, List.map_cons, List.map_nil,
      canon_chars_join_nl hP, List.filter_cons]
    by_cases hc : canon_list P = []
    · simp [segs_canon, hc]
    · simp [segs_canon, hc]
  | cons ℓ rest ih =>
    intro P hL hP
    have hℓnl : '\n' ∉ ℓ := hL ℓ (by simp)
    have hrest : ∀ x ∈ rest, '\n' ∉ x := fun x hx => hL x (by simp [hx])
    by_cases hm : matches_here ℓ = true
    · cases rest with
      | nil =>
        have h1 : rline_go (join_nl P).reverse [ℓ] = [join_nl P, ℓ] := by
          rw [rline_go, if_pos hm]
          simp [rline_go]
        rw [h1, List.map_cons, List.map_cons, List.map_nil,
          canon_chars_join_nl hP, canon_chars_line hℓnl]
        have hcl : canon_line ℓ ≠ [] := by
          rw [canon_line, if_neg (matches_strip_ne_chars hm)]
          simp
        by_cases hc : canon_list P = []
        · simp [segs_canon, hc, hm, hcl, List.filter_cons]
        · simp [segs_canon, hc, hm, hcl, List.filter_cons]
      | cons r rs =>
        have hacc : (if (r :: rs : List (List Char)).isEmpty then ([] : List Char) else ['\n'])
            ++ ℓ.reverse = (join_nl [ℓ]).reverse := by
          simp [join_nl]
        have h1 : rline_go (join_nl P).reverse (ℓ :: r :: rs) =
            (join_nl P) :: rline_go (join_nl [ℓ]).reverse (r :: rs) := by
          rw [rline_go, if_pos hm, hacc, List.reverse_reverse]
        have hih := ih [ℓ] hrest (by
          intro q hq
          have : q = ℓ := by simpa using hq
          rw [this]
          exact hℓnl)
        rw [h1, List.map_cons, canon_chars_join_nl hP, List.filter_cons, hih,
          canon_list_singleton]
        have hseg : segs_canon (canon_list P) (ℓ :: r :: rs) =
            (if canon_list P = [] then segs_canon (canon_line ℓ) (r :: rs)
             else canon_list P :: segs_canon (canon_line ℓ) (r :: rs)) := by
          rw [segs_canon.eq_2, if_pos hm]
        rw [hseg]
        by_cases hc : canon_list P = []
        · simp [hc]
        · simp [hc]
    · cases rest with
      | nil =>
        have h1 : rline_go (join_nl P).reverse [ℓ] = [join_nl P ++ ℓ] := by
          rw [rline_go, if_neg hm]
          simp [rline_go]
        rw [h1, List.map_cons, List.map_nil, canon_join_nl hP ℓ, canon_chars_line hℓnl,
          List.filter_cons]
        have hseg : segs_canon (canon_list P) (ℓ :: ([] : List (List Char))) =
            segs_canon (canon_list P ++ canon_line ℓ) [] := by
          rw [segs_canon.eq_2, if_neg hm]
        rw [hseg, segs_canon]
        by_cases hc : canon_list P ++ canon_line ℓ = []
        · simp [hc]
        · simp [hc]
      | cons r rs =>
        have hjoin : ((if (r :: rs : List (List Char)).isEmpty then ([] : List Char) else ['\n'])
            ++ ℓ.reverse) ++ (join_nl P).reverse = (join_nl (P ++ [ℓ])).reverse := by
          rw [join_nl_append_one]
          simp
        have h1 : rline_go (join_nl P).reverse (ℓ :: r :: rs) =
            rline_go (join_nl (P ++ [ℓ])).reverse (r :: rs) := by
          rw [rline_go, if_neg hm, hjoin]
        have hP2 : ∀ q ∈ P ++ [ℓ], '\n' ∉ q := by
          intro q hq
          rcases List.mem_append.mp hq with h | h
          · exact hP q h
          · have : q = ℓ := by simpa using h
            rw [this]
            exact hℓnl
        rw [h1, ih (P ++ [ℓ]) hrest hP2, canon_list_append_one]
        have hseg : segs_canon (canon_list P) (ℓ :: r :: rs) =
            segs_canon (canon_list P ++ canon_line ℓ) (r :: rs) := by
          rw [segs_canon.eq_2, if_neg hm]
        rw [hseg]

lemma matches_strip_eq {ℓ : List Char} (h1 : has_marker (ℓ.drop 1) = false) :
    matches_here (strip_chars ℓ) = matches_here ℓ := by
  cases hmℓ : matches_here ℓ with
  | true =>
    obtain ⟨ds, tail, hdec, hne, hall⟩ := matches_here_iff.mp hmℓ
    have hlt : ltrim ℓ = ℓ := by
      rw [hdec]
      exact ltrim_eq_self_of_cons (by decide)
    have hrev : ℓ.reverse = tail.reverse ++ '条' :: (ds.reverse ++ ['第']) := by
      rw [hdec]
      simp
    have hdw : ℓ.reverse.dropWhile py_ws =
        (tail.reverse.dropWhile py_ws) ++ '条' :: (ds.reverse ++ ['第']) := by
      rw [hrev, List.dropWhile_append]
      by_cases he : (tail.reverse.dropWhile py_ws).isEmpty = true
      · rw [if_pos he, List.dropWhile_cons,
          if_neg (by intro hx; exact absurd hx (by decide))]
        rw [List.isEmpty_iff] at he
        rw [he, List.nil_append]
      · rw [if_neg he]
    have hstrip : strip_chars ℓ = '第' :: (ds ++ '条' :: (tail.reverse.dropWhile py_ws).reverse) := by
      rw [strip_chars, hlt, rtrim, hdw]
      simp
    rw [hstrip]
    exact matches_here_iff.mpr ⟨ds, (tail.reverse.dropWhile py_ws).reverse, rfl, hne, hall⟩
  | false =>
    cases hms : matches_here (strip_chars ℓ) with
    | false => rfl
    | true =>
      obtain ⟨ha, haw⟩ := ltrim_decomp_ws ℓ
      obtain ⟨b, hb⟩ := rtrim_decomp (ltrim ℓ)
      rw [show rtrim (ltrim ℓ) = strip_chars ℓ from rfl] at hb
      cases hav : ℓ.takeWhile py_ws with
      | nil =>
        rw [hav, List.nil_append] at ha
        have : matches_here ℓ = true := by
          rw [ha, hb]
          exact matches_here_append hms
        exact absurd this (by rw [hmℓ]; exact fun hx => Bool.noConfusion hx)
      | cons c a2 =>
        have heq : ℓ = c :: (a2 ++ (strip_chars ℓ ++ b)) := by
          conv_lhs => rw [ha]
          rw [hav, hb, List.cons_append]
        have hdrop : ℓ.drop 1 = a2 ++ (strip_chars ℓ ++ b) := by
          conv_lhs => rw [heq]
          rfl
        have hmark : has_marker (ℓ.drop 1) = true := by
          rw [hdrop]
          exact has_marker_append_inr a2 (has_marker_of_matches_drop 0 _
            (by rw [List.drop_zero]; exact matches_here_append hms))
        exact absurd hmark (by rw [h1]; exact fun hx => Bool.noConfusion hx)

lemma string_mk_eq_empty_iff (x : List Char) : String.mk x = "" ↔ x = [] := by
  constructor
  · intro h
    exact congrArg String.data h
  · intro h
    rw [h]

lemma split_lines_append_nl (a b : List Char) :
    split_lines (a ++ '\n' :: b) = split_lines a ++ split_lines b := by
  induction a with
  | nil => rfl
  | cons c a2 ih =>
    by_cases hc : c = '\n'
    · subst hc
      rw [List.cons_append,
        show split_lines ('\n' :: (a2 ++ '\n' :: b)) = [] :: split_lines (a2 ++ '\n' :: b)
          from rfl, ih,
        show split_lines ('\n' :: a2) = [] :: split_lines a2 from rfl]
      rfl
    · rw [List.cons_append, split_lines_cons_ne hc, ih, split_lines_cons_ne hc]
      match hsp : split_lines a2 with
      | [] => exact absurd hsp (split_lines_ne_nil a2)
      | q :: qs => rfl

lemma canon_chars_append_nl (a b : List Char) :
    canon_chars (a ++ '\n' :: b) = canon_chars a ++ canon_chars b := by
  rw [canon_chars, split_lines_append_nl, List.map_append, List.filter_append]
  rfl

lemma strip_no_nl {ℓ : List Char} (h : '\n' ∉ ℓ) : '\n' ∉ strip_chars ℓ :=
  fun hm => h (mem_strip hm)

lemma canon_chars_strip {ℓ : List Char} (h : '\n' ∉ ℓ) :
    canon_chars (strip_chars ℓ) = canon_line ℓ := by
  rw [canon_chars_line (strip_no_nl h), canon_line, canon_line, strip_idem]

lemma canon_unit_eq (u : ArticleUnit) :
    canon_unit u = canon_chars u.title.data ++ canon_chars u.content.data := by
  have hd : (u.title ++ "\n" ++ u.content).data = u.title.data ++ '\n' :: u.content.data := by
    simp
  rw [canon_unit, hd, canon_chars_append_nl]

lemma canon_title_unit {ℓ : List Char} (h : '\n' ∉ ℓ) :
    canon_unit ⟨String.mk (strip_chars ℓ), ""⟩ = canon_line ℓ := by
  rw [canon_unit_eq]
  rw [show (ArticleUnit.mk (String.mk (strip_chars ℓ)) "").title = String.mk (strip_chars ℓ)
    from rfl]
  rw [show (ArticleUnit.mk (String.mk (strip_chars ℓ)) "").content = "" from rfl]
  rw [show (String.mk (strip_chars ℓ)).data = strip_chars ℓ from rfl,
    show ("" : String).data = [] from rfl, canon_chars_strip h]
  rw [show canon_chars [] = [] from rfl, List.append_nil]

lemma canon_unit_extend {cur : ArticleUnit} {ℓ : List Char} (h : '\n' ∉ ℓ) :
    canon_unit ⟨cur.title,
        if cur.content = "" then String.mk (strip_chars ℓ)
        else cur.content ++ "\n" ++ String.mk (strip_chars ℓ)⟩ =
      canon_unit cur ++ canon_line ℓ := by
  by_cases hc : cur.content = ""
  · rw [if_pos hc, canon_unit_eq, canon_unit_eq]
    rw [show (ArticleUnit.mk cur.title (String.mk (strip_chars ℓ))).title = cur.title from rfl]
    rw [show (ArticleUnit.mk cur.title (String.mk (strip_chars ℓ))).content =
      String.mk (strip_chars ℓ) from rfl]
    rw [show (String.mk (strip_chars ℓ)).data = strip_chars ℓ from rfl, canon_chars_strip h, hc]
    rw [show canon_chars ("" : String).data = [] from rfl, List.append_nil]
  · rw [if_neg hc, canon_unit_eq, canon_unit_eq]
    rw [show (ArticleUnit.mk cur.title (cur.content ++ "\n" ++ String.mk (strip_chars ℓ))).title =
      cur.title from rfl]
    rw [show (ArticleUnit.mk cur.title (cur.content ++ "\n" ++ String.mk (strip_chars ℓ))).content =
      cur.content ++ "\n" ++ String.mk (strip_chars ℓ) from rfl]
    have hd : (cur.content ++ "\n" ++ String.mk (strip_chars ℓ)).data =
        cur.content.data ++ '\n' :: strip_chars ℓ := by
      simp
    rw [hd, canon_chars_append_nl, canon_chars_strip h, List.append_assoc]

lemma front_blank_step {ℓ : List Char} {rest : List (List Char)}
    (hm : matches_here ℓ = false) (h : front_blank (ℓ :: rest) = true) :
    strip_chars ℓ = [] ∧ front_blank rest = true := by
  rw [front_blank, List.takeWhile_cons, hm] at h
  simp only [Bool.not_false, if_pos] at h
  rw [List.all_cons, Bool.and_eq_true] at h
  exact ⟨List.isEmpty_iff.mp h.1, h.2⟩

lemma machine_canon (L : List (List Char)) :
    ∀ (cur : ArticleUnit) (acc : List ArticleUnit),
      (∀ ℓ ∈ L, has_marker (ℓ.drop 1) = false) →
      (∀ ℓ ∈ L, '\n' ∉ ℓ) →
      ((cur.title = "" ∧ front_blank L = true) ∨ (cur.title ≠ "" ∧ canon_unit cur ≠ [])) →
      (extract_pdf_go cur acc (L.map String.mk)).map canon_unit =
        acc.map canon_unit ++
          segs_canon (if cur.title = "" then [] else canon_unit cur) L := by
  induction L with
  | nil =>
    intro cur acc _ _ hinv
    rcases hinv with ⟨ht, -⟩ | ⟨ht, hcne⟩
    · rw [List.map_nil, extract_pdf_go_nil_skip ht, if_pos ht]
      rw [show segs_canon ([] : List (List Char)) [] = [] from rfl, List.append_nil]
    · rw [List.map_nil, extract_pdf_go_nil_flush ht, if_neg ht, List.map_append,
        segs_canon, if_neg hcne]
      rfl
  | cons ℓ rest ih =>
    intro cur acc h1 hnl hinv
    have hmem : ℓ ∈ ℓ :: rest := by simp
    have hbridge : matches_here (strip_chars ℓ) = matches_here ℓ :=
      matches_strip_eq (h1 ℓ hmem)
    have hℓnl : '\n' ∉ ℓ := hnl ℓ hmem
    have h1r : ∀ x ∈ rest, has_marker (x.drop 1) = false := fun x hx => h1 x (by simp [hx])
    have hnlr : ∀ x ∈ rest, '\n' ∉ x := fun x hx => hnl x (by simp [hx])
    have hps : py_strip (String.mk ℓ) = String.mk (strip_chars ℓ) := rfl
    rw [List.map_cons]
    by_cases hblank : strip_chars ℓ = []
    · have hpse : py_strip (String.mk ℓ) = "" := by
        rw [hps, string_mk_eq_empty_iff]
        exact hblank
      have hmfalse : matches_here ℓ = false := by
        rw [← hbridge, hblank]
        exact matches_here_nil
      have hclb : canon_line ℓ = [] := by rw [canon_line, if_pos hblank]
      rw [extract_pdf_go_cons_blank hpse]
      have hinv2 : (cur.title = "" ∧ front_blank rest = true) ∨
          (cur.title ≠ "" ∧ canon_unit cur ≠ []) := by
        rcases hinv with ⟨ht, hfb⟩ | hr
        · exact Or.inl ⟨ht, (front_blank_step hmfalse hfb).2⟩
        · exact Or.inr hr
      have hmn : ¬ matches_here ℓ = true := by
        rw [hmfalse]
        exact fun hx => Bool.noConfusion hx
      have hstep : ∀ c : List (List Char), segs_canon c (ℓ :: rest) = segs_canon c rest := by
        intro c
        rw [segs_canon.eq_2, if_neg hmn, hclb, List.append_nil]
      rw [ih cur acc h1r hnlr hinv2, hstep]
    · have hpsne : ¬ py_strip (String.mk ℓ) = "" := by
        rw [hps, string_mk_eq_empty_iff]
        exact hblank
      have hdata : (py_strip (String.mk ℓ)).data = strip_chars ℓ := rfl
      have hclne : canon_line ℓ ≠ [] := by
        rw [canon_line, if_neg hblank]
        exact fun hx => List.noConfusion hx
      by_cases hm : matches_here ℓ = true
      · have hmt : matches_here (py_strip (String.mk ℓ)).data = true := by
          rw [hdata, hbridge]
          exact hm
        rw [extract_pdf_go_cons_marker hpsne hmt]
        have hinv2 : ((ArticleUnit.mk (py_strip (String.mk ℓ)) "").title = "" ∧
              front_blank rest = true) ∨
            ((ArticleUnit.mk (py_strip (String.mk ℓ)) "").title ≠ "" ∧
              canon_unit (ArticleUnit.mk (py_strip (String.mk ℓ)) "") ≠ []) := by
          refine Or.inr ⟨hpsne, ?_⟩
          rw [hps, canon_title_unit hℓnl]
          exact hclne
        rw [ih _ _ h1r hnlr hinv2]
        rw [if_neg (show ¬ (ArticleUnit.mk (py_strip (String.mk ℓ)) "").title = "" from hpsne)]
        rw [show canon_unit (ArticleUnit.mk (py_strip (String.mk ℓ)) "") =
          canon_unit ⟨String.mk (strip_chars ℓ), ""⟩ from rfl, canon_title_unit hℓnl]
        rcases hinv with ⟨ht, -⟩ | ⟨ht, hcne⟩
        · rw [if_neg (show ¬ cur.title ≠ "" from fun hx => hx ht), if_pos ht,
            segs_canon.eq_2, if_pos hm,
            if_pos (show ([] : List (List Char)) = [] from rfl)]
        · rw [if_pos ht, if_neg ht, List.map_append, segs_canon.eq_2, if_pos hm,
            if_neg hcne]
          simp
      · have hmf : ¬ matches_here (py_strip (String.mk ℓ)).data = true := by
          rw [hdata, hbridge]
          exact hm
        rcases hinv with ⟨ht, hfb⟩ | ⟨ht, hcne⟩
        · have hmfalse : matches_here ℓ = false := by
            cases hx : matches_here ℓ with
            | false => rfl
            | true => exact absurd hx hm
          exact absurd (front_blank_step hmfalse hfb).1 hblank
        · rw [extract_pdf_go_cons_text_titled hpsne hmf ht]
          have hcur2 : canon_unit (ArticleUnit.mk cur.title
              (if cur.content = "" then py_strip (String.mk ℓ)
               else cur.content ++ "\n" ++ py_strip (String.mk ℓ))) =
              canon_unit cur ++ canon_line ℓ := by
            rw [hps]
            exact canon_unit_extend hℓnl
          have hinv2 : ((ArticleUnit.mk cur.title
                (if cur.content = "" then py_strip (String.mk ℓ)
                 else cur.content ++ "\n" ++ py_strip (String.mk ℓ))).title = "" ∧
              front_blank rest = true) ∨
              ((ArticleUnit.mk cur.title
                (if cur.content = "" then py_strip (String.mk ℓ)
                 else cur.content ++ "\n" ++ py_strip (String.mk ℓ))).title ≠ "" ∧
              canon_unit (ArticleUnit.mk cur.title
                (if cur.content = "" then py_strip (String.mk ℓ)
                 else cur.content ++ "\n" ++ py_strip (String.mk ℓ))) ≠ []) := by
            refine Or.inr ⟨ht, ?_⟩
            rw [hcur2]
            intro hx
            exact hcne (List.append_eq_nil.mp hx).1
          rw [ih _ _ h1r hnlr hinv2]
          rw [if_neg (show ¬ (ArticleUnit.mk cur.title
              (if cur.content = "" then py_strip (String.mk ℓ)
               else cur.content ++ "\n" ++ py_strip (String.mk ℓ))).title = "" from ht)]
          rw [hcur2, if_neg ht, segs_canon.eq_2, if_neg hm]

lemma filter_map_canon (X : List (List Char)) :
    (((X.map (fun l => String.mk l)).filter (fun a => py_strip a ≠ "")).map canon_str) =
      (X.map canon_chars).filter (fun x => x ≠ []) := by
  induction X with
  | nil => rfl
  | cons l X2 ih =>
    rw [List.map_cons, List.filter_cons, List.map_cons, List.filter_cons]
    by_cases hs : strip_chars l = []
    · have hps : py_strip (String.mk l) = "" := by
        rw [show py_strip (String.mk l) = String.mk (strip_chars l) from rfl,
          string_mk_eq_empty_iff]
        exact hs
      have hcc : canon_chars l = [] := (canon_chars_eq_nil_iff l).mpr hs
      have hb1 : ¬ ((decide (py_strip (String.mk l) ≠ "")) = true) := by simp [hps]
      have hb2 : ¬ ((decide (canon_chars l ≠ [])) = true) := by simp [hcc]
      rw [if_neg hb1, if_neg hb2]
      exact ih
    · have hps : py_strip (String.mk l) ≠ "" := by
        rw [show py_strip (String.mk l) = String.mk (strip_chars l) from rfl, Ne,
          string_mk_eq_empty_iff]
        exact hs
      have hcc : canon_chars l ≠ [] := fun hx => hs ((canon_chars_eq_nil_iff l).mp hx)
      have hb1 : (decide (py_strip (String.mk l) ≠ "")) = true := by simp [hps]
      have hb2 : (decide (canon_chars l ≠ [])) = true := by simp [hcc]
      rw [if_pos hb1, if_pos hb2, List.map_cons, ih,
        show canon_str (String.mk l) = canon_chars l from rfl]

lemma regex_canon (t : String)
    (h1 : ∀ ℓ ∈ split_lines t.data, has_marker (ℓ.drop 1) = false) :
    (split_articles_by_regex t).map canon_str = segs_canon [] (split_lines t.data) := by
  rw [split_articles_by_regex, filter_map_canon]
  have hjoin : rsplit_go [] t.data = rline_go [] (split_lines t.data) := by
    conv_lhs => rw [← join_split t.data]
    exact rsplit_join (split_lines t.data) [] h1
  rw [hjoin]
  exact rline_canon (split_lines t.data) [] (split_lines_no_nl t.data)
    (fun q hq => absurd hq (List.not_mem_nil q))

lemma machine_side (t : String)
    (h1 : ∀ ℓ ∈ split_lines t.data, has_marker (ℓ.drop 1) = false)
    (h2 : front_blank (split_lines t.data) = true) :
    (segment_pdf_text t).map canon_unit = segs_canon [] (split_lines t.data) := by
  have h := machine_canon (split_lines t.data) ⟨"", ""⟩ [] h1 (split_lines_no_nl t.data)
    (Or.inl ⟨rfl, h2⟩)
  exact h

/-- C8 (counterexample): on `"前言\n第一条甲"` every marker occurrence starts a
line (no marker inside any unit's content), yet the regex split keeps the
front-matter line `前言` as a segment of its own while the state machine
drops it: two segments against one unit, so the two segmentations do not
produce the same unit boundaries on every such input. -/
theorem segmentation_regex_not_equiv :
    ((split_lines ("前言\n第一条甲").data).all
        (fun ℓ => !(has_marker (ℓ.drop 1)))) = true ∧
    (split_articles_by_regex "前言\n第一条甲").length = 2 ∧
    (segment_pdf_text "前言\n第一条甲").length = 1 := by
  decide

/-- C8 (amended): for input whose marker occurrences all start a line and
whose lines before the first marker line are all blank after stripping, the
regex split and the state machine produce the same unit boundaries: the i-th
regex segment is content-equivalent (same stripped non-blank lines) to the
i-th unit's title-plus-content, and the counts agree. -/
theorem segmentation_regex_equiv (t : String)
    (h1 : ∀ ℓ ∈ split_lines t.data, has_marker (ℓ.drop 1) = false)
    (h2 : front_blank (split_lines t.data) = true) :
    (split_articles_by_regex t).map canon_str = (segment_pdf_text t).map canon_unit ∧
    (split_articles_by_regex t).length = (segment_pdf_text t).length := by
  have hr := regex_canon t h1
  have hm := machine_side t h1 h2
  constructor
  · rw [hr, hm]
  · have hlen : ((split_articles_by_regex t).map canon_str).length =
        ((segment_pdf_text t).map canon_unit).length := by rw [hr, hm]
    rw [List.length_map, List.length_map] at hlen
    exact hlen

/-- C8 (witness): the amended equivalence applied to the concrete normalized
text `"第一条 甲\n乙\n第二条 丙"`, whose hypotheses hold by computation. -/
theorem segmentation_regex_equiv_witness :
    ((∀ ℓ ∈ split_lines ("第一条 甲\n乙\n第二条 丙").data, has_marker (ℓ.drop 1) = false) ∧
      front_blank (split_lines ("第一条 甲\n乙\n第二条 丙").data) = true) ∧
    ((split_articles_by_regex "第一条 甲\n乙\n第二条 丙").map canon_str =
        (segment_pdf_text "第一条 甲\n乙\n第二条 丙").map canon_unit ∧
      (split_articles_by_regex "第一条 甲\n乙\n第二条 丙").length =
        (segment_pdf_text "第一条 甲\n乙\n第二条 丙").length) :=
  ⟨⟨by decide, by decide⟩,
    segmentation_regex_equiv ("第一条 甲\n乙\n第二条 丙") (by decide) (by decide)⟩
